import Mathlib

/-!
Verification of the `code-review` CLI (Go) against its natural-language
specification.  The relevant parts of the program are shallowly embedded:
Go strings are modelled as `List Char` (the program only ever inspects
ASCII prefixes/suffixes, for which byte-level and character-level views
agree), Go ints that arise from counting are modelled as `Nat`, Go slices
as `List`, and fallible operations return `Option`.
-/

namespace CodeReview

/-- Go `types.FileDiff` (src/internal/types/types.go): one file's changes. -/
structure FileDiff where
  OldPath   : List Char
  NewPath   : List Char
  Diff      : List Char
  Additions : Nat
  Deletions : Nat
  Language  : List Char
  deriving DecidableEq, Repr

/-- Go `types.FileBatch` (src/internal/types/types.go): a group of files
reviewed in one request, with the running sum of their change counts. -/
structure FileBatch where
  Files        : List FileDiff
  TotalChanges : Nat
  deriving DecidableEq, Repr

instance : Inhabited FileBatch := ⟨⟨[], 0⟩⟩

/-- The per-file change count `diffItem.Additions + diffItem.Deletions`
used by `createBatches` (src/cmd/review/main.go). -/
def fileChanges (d : FileDiff) : Nat := d.Additions + d.Deletions

/-- Sum of the change counts of a list of files. -/
def sumChanges (ds : List FileDiff) : Nat := (ds.map fileChanges).sum

/-- The loop body of `createBatches` (src/cmd/review/main.go, lines
103-137): walk the diffs once, giving an individually-oversized file a
singleton batch (flushing the accumulating batch first), flushing the
accumulating batch when the next file would push it over budget, and
flushing the remaining batch at the end. -/
def createBatchesGo (maxChangesPerBatch : Nat) :
    List FileDiff → FileBatch → List FileBatch
  | [], currentBatch =>
      if currentBatch.Files.length > 0 then [currentBatch] else []
  | diffItem :: rest, currentBatch =>
      let fc := fileChanges diffItem
      if fc > maxChangesPerBatch then
        (if currentBatch.Files.length > 0 then [currentBatch] else []) ++
          ⟨[diffItem], fc⟩ :: createBatchesGo maxChangesPerBatch rest ⟨[], 0⟩
      else if currentBatch.TotalChanges + fc > maxChangesPerBatch ∧
          currentBatch.Files.length > 0 then
        currentBatch ::
          createBatchesGo maxChangesPerBatch rest ⟨[diffItem], fc⟩
      else
        createBatchesGo maxChangesPerBatch rest
          ⟨currentBatch.Files ++ [diffItem], currentBatch.TotalChanges + fc⟩

/-- Go `createBatches` (src/cmd/review/main.go): partition the diffs into
batches bounded by `maxChangesPerBatch`. -/
def createBatches (diffs : List FileDiff) (maxChangesPerBatch : Nat) :
    List FileBatch :=
  createBatchesGo maxChangesPerBatch diffs ⟨[], 0⟩

lemma files_eq_nil {b : FileBatch} (h : ¬ b.Files.length > 0) :
    b.Files = [] :=
  List.eq_nil_of_length_eq_zero (Nat.eq_zero_of_not_pos h)

lemma createBatchesGo_join (k : Nat) (ds : List FileDiff) (cur : FileBatch) :
    ((createBatchesGo k ds cur).map FileBatch.Files).flatten =
      cur.Files ++ ds := by
  induction ds generalizing cur with
  | nil =>
      by_cases h : cur.Files.length > 0 <;>
        simp [createBatchesGo, h, files_eq_nil]
  | cons d rest ih =>
      simp only [createBatchesGo]
      by_cases h1 : fileChanges d > k
      · by_cases h2 : cur.Files.length > 0 <;>
          simp [h1, h2, ih, files_eq_nil]
      · by_cases h2 : cur.TotalChanges + fileChanges d > k ∧ cur.Files.length > 0
        · simp [h1, h2, ih]
        · simp [h1, h2, ih]

lemma createBatchesGo_bound (k : Nat) (ds : List FileDiff) (cur : FileBatch)
    (hsum : cur.TotalChanges = sumChanges cur.Files)
    (hle : cur.TotalChanges ≤ k) :
    ∀ b ∈ createBatchesGo k ds cur,
      b.TotalChanges = sumChanges b.Files ∧
        (b.TotalChanges ≤ k ∨ ∃ d, b.Files = [d] ∧ fileChanges d > k) := by
  induction ds generalizing cur with
  | nil =>
      intro b hb
      by_cases h : cur.Files.length > 0 <;> simp [createBatchesGo, h] at hb
      subst hb; exact ⟨hsum, Or.inl hle⟩
  | cons d rest ih =>
      intro b hb
      simp only [createBatchesGo] at hb
      by_cases h1 : fileChanges d > k
      · simp only [if_pos h1, List.mem_append, List.mem_cons] at hb
        rcases hb with hb | hb | hb
        · by_cases h2 : cur.Files.length > 0 <;> simp [h2] at hb
          subst hb; exact ⟨hsum, Or.inl hle⟩
        · subst hb
          refine ⟨by simp [sumChanges], Or.inr ⟨d, rfl, h1⟩⟩
        · exact ih ⟨[], 0⟩ (by simp [sumChanges]) (Nat.zero_le _) b hb
      · simp only [if_neg h1] at hb
        by_cases h2 : cur.TotalChanges + fileChanges d > k ∧ cur.Files.length > 0
        · simp only [if_pos h2, List.mem_cons] at hb
          rcases hb with hb | hb
          · subst hb; exact ⟨hsum, Or.inl hle⟩
          · refine ih ⟨[d], fileChanges d⟩ (by simp [sumChanges]) ?_ b hb
            exact Nat.le_of_not_lt h1
        · simp only [if_neg h2] at hb
          refine ih _ ?_ ?_ b hb
          · simp [sumChanges, hsum]
          · rcases Nat.lt_or_ge k (cur.TotalChanges + fileChanges d) with hlt | hge
            · -- then `cur` must have been empty, so the new total is just `fc ≤ k`
              have hcur : cur.Files = [] :=
                files_eq_nil fun hpos => h2 ⟨hlt, hpos⟩
              have h0 : cur.TotalChanges = 0 := by
                rw [hsum, hcur]; simp [sumChanges]
              show cur.TotalChanges + fileChanges d ≤ k
              omega
            · exact hge

/-- C1: `createBatches` partitions its input exactly — concatenating the
batches' file lists reproduces the input list — and every batch's total
change count (which equals the sum of its members' additions+deletions)
is at most the budget, except that an individually-oversized file forms a
singleton batch. -/
theorem createBatches_partition (diffs : List FileDiff) (k : Nat)
    (_hk : 0 < k) :
    ((createBatches diffs k).map FileBatch.Files).flatten = diffs ∧
      ∀ b ∈ createBatches diffs k,
        b.TotalChanges = sumChanges b.Files ∧
          (b.TotalChanges ≤ k ∨ ∃ d, b.Files = [d] ∧ fileChanges d > k) := by
  constructor
  · simpa using createBatchesGo_join k diffs ⟨[], 0⟩
  · exact createBatchesGo_bound k diffs ⟨[], 0⟩ (by simp [sumChanges])
      (Nat.zero_le _)

/-- Witness for C1: the spec's own end-to-end scenario — `a.ts` with 5
changes and `b.tsx` with 200 changes, budget 100 — instantiates the
theorem, and the batches are `[a.ts]` then the oversized singleton
`[b.tsx]`. -/
theorem createBatches_partition_witness :
    (((createBatches
        [⟨"a.ts".data, "a.ts".data, [], 3, 2, []⟩,
         ⟨"b.tsx".data, "b.tsx".data, [], 120, 80, []⟩] 100).map
        FileBatch.Files).flatten =
      [⟨"a.ts".data, "a.ts".data, [], 3, 2, []⟩,
       ⟨"b.tsx".data, "b.tsx".data, [], 120, 80, []⟩]) ∧
    createBatches
        [⟨"a.ts".data, "a.ts".data, [], 3, 2, []⟩,
         ⟨"b.tsx".data, "b.tsx".data, [], 120, 80, []⟩] 100 =
      [⟨[⟨"a.ts".data, "a.ts".data, [], 3, 2, []⟩], 5⟩,
       ⟨[⟨"b.tsx".data, "b.tsx".data, [], 120, 80, []⟩], 200⟩] := by
  refine ⟨(createBatches_partition _ 100 (by decide)).1, by decide⟩

/-! ## Diff parsing (src/internal/diff/diff.go) -/

/-- Go `strings.Split(s, "\n")` on the character level: split into lines at
every newline, keeping empty pieces (Go's `strings.Split` semantics). -/
def splitNl : List Char → List (List Char)
  | [] => [[]]
  | c :: cs =>
      if c = '\n' then [] :: splitNl cs
      else
        match splitNl cs with
        | [] => [[c]]
        | l :: ls => (c :: l) :: ls

/-- Numeric value of a list of decimal digit characters (the semantics of
`strconv.Atoi` on an all-digit string, ignoring the int64 range which is
checked separately). -/
def natOfDigits (ds : List Char) : Nat :=
  ds.foldl (fun n c => n * 10 + (c.toNat - 48)) 0

/-- Consume one expected literal character. -/
def expectChar (c : Char) : List Char → Option (List Char)
  | [] => none
  | x :: rest => if x = c then some rest else none

/-- Consume a nonempty maximal run of decimal digits (`\d+`; since every
use site follows it with a non-digit literal, greedy maximal munch is
exactly the regular expression's behaviour). -/
def expectDigits (cs : List Char) : Option (List Char × List Char) :=
  match cs.takeWhile Char.isDigit with
  | [] => none
  | ds => some (ds, cs.dropWhile Char.isDigit)

/-- Try to match the regular expression
`@@ -\d+,\d+ \+(\d+),\d+ @@` at the start of `cs`, returning the digits
captured by the group after `+`. -/
def matchHunkAt (cs : List Char) : Option (List Char) := do
  let r ← expectChar '@' cs
  let r ← expectChar '@' r
  let r ← expectChar ' ' r
  let r ← expectChar '-' r
  let (_, r) ← expectDigits r
  let r ← expectChar ',' r
  let (_, r) ← expectDigits r
  let r ← expectChar ' ' r
  let r ← expectChar '+' r
  let (d3, r) ← expectDigits r
  let r ← expectChar ',' r
  let (_, r) ← expectDigits r
  let r ← expectChar ' ' r
  let r ← expectChar '@' r
  let _ ← expectChar '@' r
  pure d3

/-- Go `regexp.FindStringSubmatch` for the hunk-header pattern: leftmost
match wins, returning the captured new-start digits. -/
def findHunkNum : List Char → Option (List Char)
  | [] => none
  | c :: cs =>
      match matchHunkAt (c :: cs) with
      | some d => some d
      | none => findHunkNum cs

/-- Go's `math.MaxInt64`; `strconv.Atoi` fails (and the hunk counter is
left unchanged) on digit strings whose value exceeds it. -/
def maxInt64 : Nat := 9223372036854775807

/-- Go's `math.MinInt64`. -/
def minInt64 : Int := -9223372036854775808

/-- Two's-complement wraparound of a 64-bit Go `int`: `currentLine++` at
`MaxInt64` wraps to `MinInt64` (defined behavior per the Go spec). -/
def wrap64 (n : Int) : Int :=
  (n + 9223372036854775808) % 18446744073709551616 - 9223372036854775808

/-- The loop of `ParseChangedLines` (src/internal/diff/diff.go, lines
16-45) over the already-split lines, with the running `currentLine`
counter — a 64-bit Go `int`, so every `currentLine++` wraps at
`MaxInt64`. -/
def parseChangedLinesGo (currentLine : Int) : List (List Char) → List Int
  | [] => []
  | line :: rest =>
      if line.take 2 = ['@', '@'] then
        match findHunkNum line with
        | some d =>
            if natOfDigits d ≤ maxInt64 then
              parseChangedLinesGo ((natOfDigits d : Int)) rest
            else parseChangedLinesGo currentLine rest
        | none => parseChangedLinesGo currentLine rest
      else if line.take 1 = ['+'] ∧ line.take 3 ≠ ['+', '+', '+'] then
        currentLine :: parseChangedLinesGo (wrap64 (currentLine + 1)) rest
      else if line.take 1 = ['-'] ∧ line.take 3 ≠ ['-', '-', '-'] then
        parseChangedLinesGo currentLine rest
      else if line.take 1 = [' '] then
        parseChangedLinesGo (wrap64 (currentLine + 1)) rest
      else parseChangedLinesGo currentLine rest

/-- Go `ParseChangedLines` (src/internal/diff/diff.go): the absolute
post-change line numbers of all added lines of a unified diff. -/
def ParseChangedLines (diff : List Char) : List Int :=
  parseChangedLinesGo 0 (splitNl diff)

/-- The hunk-counter algorithm exactly as the spec words it, with an
ideal unbounded counter: on a matched hunk header reset the counter to
the header's new-start value, record-and-increment on `+` lines, leave
unchanged on `-` lines, increment on context lines.  This is the
spec-side definition against which `ParseChangedLines` is compared. -/
def specChangedLinesGo (currentLine : Nat) : List (List Char) → List Nat
  | [] => []
  | line :: rest =>
      if line.take 2 = ['@', '@'] then
        match findHunkNum line with
        | some d => specChangedLinesGo (natOfDigits d) rest
        | none => specChangedLinesGo currentLine rest
      else if line.take 1 = ['+'] ∧ line.take 3 ≠ ['+', '+', '+'] then
        currentLine :: specChangedLinesGo (currentLine + 1) rest
      else if line.take 1 = ['-'] ∧ line.take 3 ≠ ['-', '-', '-'] then
        specChangedLinesGo currentLine rest
      else if line.take 1 = [' '] then
        specChangedLinesGo (currentLine + 1) rest
      else specChangedLinesGo currentLine rest

/-- Decimal digit characters of a natural number (most significant
first), used to build concrete hunk-header lines. -/
def digitsOfNat (n : Nat) : List Char :=
  if h : n < 10 then [Char.ofNat (48 + n)]
  else
    have : n / 10 < n := Nat.div_lt_self (by omega) (by omega)
    digitsOfNat (n / 10) ++ [Char.ofNat (48 + n % 10)]

/-- A hunk header line of the exact form `@@ -a,b +c,d @@`. -/
def hunkHeaderLine (a b c d : Nat) : List Char :=
  '@' :: '@' :: ' ' :: '-' ::
    (digitsOfNat a ++ ',' :: (digitsOfNat b ++ ' ' :: '+' ::
      (digitsOfNat c ++ ',' :: (digitsOfNat d ++ [' ', '@', '@']))))

lemma digit_char_isDigit {n : Nat} (h : n < 10) :
    (Char.ofNat (48 + n)).isDigit = true := by
  interval_cases n <;> decide

lemma digit_char_toNat {n : Nat} (h : n < 10) :
    (Char.ofNat (48 + n)).toNat = 48 + n := by
  interval_cases n <;> decide

lemma digitsOfNat_isDigit (n : Nat) :
    ∀ c ∈ digitsOfNat n, c.isDigit = true := by
  induction n using Nat.strong_induction_on with
  | _ n ih =>
      intro c hc
      rw [digitsOfNat] at hc
      by_cases h : n < 10
      · simp [h] at hc
        subst hc; exact digit_char_isDigit h
      · simp only [dif_neg h, List.mem_append, List.mem_singleton] at hc
        rcases hc with hc | hc
        · exact ih (n / 10) (Nat.div_lt_self (by omega) (by omega)) c hc
        · subst hc; exact digit_char_isDigit (Nat.mod_lt _ (by omega))

lemma digitsOfNat_ne_nil (n : Nat) : digitsOfNat n ≠ [] := by
  rw [digitsOfNat]
  by_cases h : n < 10 <;> simp [h]

lemma natOfDigits_append_singleton (ds : List Char) (c : Char) :
    natOfDigits (ds ++ [c]) = natOfDigits ds * 10 + (c.toNat - 48) := by
  simp [natOfDigits, List.foldl_append]

lemma natOfDigits_digitsOfNat (n : Nat) :
    natOfDigits (digitsOfNat n) = n := by
  induction n using Nat.strong_induction_on with
  | _ n ih =>
      rw [digitsOfNat]
      by_cases h : n < 10
      · simp only [dif_pos h, natOfDigits, List.foldl_cons, List.foldl_nil]
        rw [digit_char_toNat h]; omega
      · simp only [dif_neg h, natOfDigits_append_singleton]
        rw [ih (n / 10) (Nat.div_lt_self (by omega) (by omega)),
          digit_char_toNat (Nat.mod_lt _ (by omega))]
        omega

lemma takeWhile_digits_stop {ds : List Char} (hds : ∀ c ∈ ds, c.isDigit = true)
    {c : Char} (hc : c.isDigit = false) (rest : List Char) :
    (ds ++ c :: rest).takeWhile Char.isDigit = ds ∧
      (ds ++ c :: rest).dropWhile Char.isDigit = c :: rest := by
  induction ds with
  | nil => simp [List.takeWhile_cons, List.dropWhile_cons, hc]
  | cons a l ih =>
      have ha : a.isDigit = true := hds a (by simp)
      have ihl := ih fun x hx => hds x (by simp [hx])
      simp [List.takeWhile_cons, List.dropWhile_cons, ha, ihl.1, ihl.2]

lemma expectChar_cons (c : Char) (rest : List Char) :
    expectChar c (c :: rest) = some rest := by
  simp [expectChar]

lemma expectDigits_of_stop {ds : List Char} (hne : ds ≠ [])
    (hds : ∀ x ∈ ds, x.isDigit = true) {c : Char} (hc : c.isDigit = false)
    (rest : List Char) :
    expectDigits (ds ++ c :: rest) = some (ds, c :: rest) := by
  have h := takeWhile_digits_stop hds hc rest
  cases ds with
  | nil => exact absurd rfl hne
  | cons a l =>
      simp only [expectDigits, h.1, h.2]

lemma matchHunkAt_hunkHeaderLine (a b c d : Nat) :
    matchHunkAt (hunkHeaderLine a b c d) = some (digitsOfNat c) := by
  have hcomma : (',' : Char).isDigit = false := by decide
  have hspace : (' ' : Char).isDigit = false := by decide
  simp only [hunkHeaderLine, matchHunkAt, expectChar_cons, Option.some_bind,
    Option.pure_def, Option.bind_eq_bind]
  rw [expectDigits_of_stop (digitsOfNat_ne_nil a) (digitsOfNat_isDigit a)
    hcomma]
  simp only [Option.some_bind, expectChar_cons]
  rw [expectDigits_of_stop (digitsOfNat_ne_nil b) (digitsOfNat_isDigit b)
    hspace]
  simp only [Option.some_bind, expectChar_cons]
  rw [expectDigits_of_stop (digitsOfNat_ne_nil c) (digitsOfNat_isDigit c)
    hcomma]
  simp only [Option.some_bind, expectChar_cons]
  rw [expectDigits_of_stop (digitsOfNat_ne_nil d) (digitsOfNat_isDigit d)
    hspace]
  simp only [Option.some_bind, expectChar_cons]

lemma take_one_eq {l : List Char} {c : Char} (h : l.take 1 = [c]) :
    ∃ t, l = c :: t := by
  cases l with
  | nil => simp at h
  | cons a t =>
      simp only [List.take, List.cons.injEq] at h
      exact ⟨t, by rw [h.1]⟩

lemma findHunkNum_hunkHeaderLine (a b c d : Nat) :
    findHunkNum (hunkHeaderLine a b c d) = some (digitsOfNat c) := by
  have hm := matchHunkAt_hunkHeaderLine a b c d
  simp only [hunkHeaderLine] at hm ⊢
  simp [findHunkNum, hm]

/-- Counterexample to C2 as stated: at the 40-byte diff whose single
hunk header restarts at exactly `MaxInt64` (which `strconv.Atoi`
accepts) followed by two added lines, the program records
`[MaxInt64, MinInt64]` — `currentLine++` wraps, two's-complement
behavior defined by the Go spec — whereas the spec's idealized
hunk-counter algorithm records `[MaxInt64, MaxInt64 + 1]`. -/
theorem parseChangedLines_algorithm_cex :
    ¬ (ParseChangedLines
        "@@ -1,1 +9223372036854775807,1 @@\n+x\n+y".data =
      (specChangedLinesGo 0 (splitNl
        "@@ -1,1 +9223372036854775807,1 @@\n+x\n+y".data)).map
        (fun n => (n : Int))) := by
  decide

/-- C2 (amended): `ParseChangedLines` implements the hunk-counter
algorithm with Go's wrapping 64-bit counter: a hunk header
`@@ -a,b +c,d @@` whose new-start value fits in int64 resets the running
counter to `c`; a line starting with `+` (but not `+++`) records the
counter and increments it with 64-bit wraparound — ordinary `+1`
whenever the counter lies in `[MinInt64, MaxInt64)`, and `MaxInt64`
wraps to `MinInt64`; a line starting with `-` (but not `---`) leaves it
unchanged; a line starting with a space increments it likewise without
recording.  In particular the diff `@@ -10,3 +10,4 @@` / context /
added / context yields exactly `[11]`. -/
theorem parseChangedLines_algorithm :
    (∀ (k : Int) (ls : List (List Char)) (a b c d : Nat), c ≤ maxInt64 →
        parseChangedLinesGo k (hunkHeaderLine a b c d :: ls) =
          parseChangedLinesGo (c : Int) ls) ∧
    (∀ (k : Int) (ls : List (List Char)) (l : List Char),
        l.take 1 = ['+'] → l.take 3 ≠ ['+', '+', '+'] →
        parseChangedLinesGo k (l :: ls) =
          k :: parseChangedLinesGo (wrap64 (k + 1)) ls) ∧
    (∀ (k : Int) (ls : List (List Char)) (l : List Char),
        l.take 1 = ['-'] → l.take 3 ≠ ['-', '-', '-'] →
        parseChangedLinesGo k (l :: ls) = parseChangedLinesGo k ls) ∧
    (∀ (k : Int) (ls : List (List Char)) (l : List Char),
        l.take 1 = [' '] →
        parseChangedLinesGo k (l :: ls) =
          parseChangedLinesGo (wrap64 (k + 1)) ls) ∧
    (∀ k : Int, minInt64 ≤ k → k < (maxInt64 : Int) →
        wrap64 (k + 1) = k + 1) ∧
    wrap64 ((maxInt64 : Int) + 1) = minInt64 ∧
    ParseChangedLines "@@ -10,3 +10,4 @@\n ctx\n+added\n ctx2".data = [11]
    := by
  refine ⟨?_, ?_, ?_, ?_,
    fun k hlo hhi => by
      simp only [wrap64, minInt64, maxInt64] at *
      omega,
    by decide, by decide⟩
  · intro k ls a b c d hc
    have ht : (hunkHeaderLine a b c d).take 2 = ['@', '@'] := rfl
    rw [parseChangedLinesGo, if_pos ht, findHunkNum_hunkHeaderLine]
    simp only [natOfDigits_digitsOfNat]
    rw [if_pos hc]
  · intro k ls l h1 h2
    obtain ⟨t, rfl⟩ := take_one_eq h1
    have hat : ¬ ('+' :: t).take 2 = ['@', '@'] := by
      intro hcontra
      simp only [List.take, List.cons.injEq] at hcontra
      exact absurd hcontra.1 (by decide)
    rw [parseChangedLinesGo, if_neg hat, if_pos ⟨rfl, h2⟩]
  · intro k ls l h1 h2
    obtain ⟨t, rfl⟩ := take_one_eq h1
    have hat : ¬ ('-' :: t).take 2 = ['@', '@'] := by
      intro hcontra
      simp only [List.take, List.cons.injEq] at hcontra
      exact absurd hcontra.1 (by decide)
    have hplus : ¬ (('-' :: t).take 1 = ['+'] ∧
        ('-' :: t).take 3 ≠ ['+', '+', '+']) := by
      intro hcontra
      have := hcontra.1
      simp only [List.take, List.cons.injEq] at this
      exact absurd this.1 (by decide)
    rw [parseChangedLinesGo, if_neg hat, if_neg hplus, if_pos ⟨rfl, h2⟩]
  · intro k ls l h1
    obtain ⟨t, rfl⟩ := take_one_eq h1
    have hat : ¬ (' ' :: t).take 2 = ['@', '@'] := by
      intro hcontra
      simp only [List.take, List.cons.injEq] at hcontra
      exact absurd hcontra.1 (by decide)
    have hplus : ¬ ((' ' :: t).take 1 = ['+'] ∧
        (' ' :: t).take 3 ≠ ['+', '+', '+']) := by
      intro hcontra
      have := hcontra.1
      simp only [List.take, List.cons.injEq] at this
      exact absurd this.1 (by decide)
    have hminus : ¬ ((' ' :: t).take 1 = ['-'] ∧
        (' ' :: t).take 3 ≠ ['-', '-', '-']) := by
      intro hcontra
      have := hcontra.1
      simp only [List.take, List.cons.injEq] at this
      exact absurd this.1 (by decide)
    rw [parseChangedLinesGo, if_neg hat, if_neg hplus, if_neg hminus,
      if_pos h1]

/-- Witness for C2: replaying the spec's example through the theorem's
hunk-header equation (at header `@@ -10,3 +10,4 @@`) reproduces `[11]`. -/
theorem parseChangedLines_algorithm_witness :
    parseChangedLinesGo 0
      (hunkHeaderLine 10 3 10 4 ::
        [" ctx".data, "+added".data, " ctx2".data]) = [11] := by
  have h := parseChangedLines_algorithm
  rw [h.1 0 _ 10 3 10 4 (by decide)]
  decide

/-! ## Context enrichment (src/internal/parser/parser.go) -/

/-- Go `types.CodeContext`: changed line numbers (`[]int`) plus a map
from line number to rendered surrounding context.  The Go
`map[int]string` is modelled as an association list with unique keys,
maintained by `mapInsert`. -/
structure CodeContext where
  ChangedLines : List Int
  Surrounding  : List (Int × List Char)
  deriving DecidableEq, Repr

/-- Go map assignment `m[k] = v`: replace the binding if the key is
present, otherwise append it. -/
def mapInsert (m : List (Int × List Char)) (k : Int) (v : List Char) :
    List (Int × List Char) :=
  match m with
  | [] => [(k, v)]
  | (k', v') :: rest =>
      if k' = k then (k, v) :: rest else (k', v') :: mapInsert rest k v

/-- Left-pad the decimal rendering of `n` to width 4 (`fmt.Sprintf`'s
`%4d`). -/
def pad4 (n : Nat) : List Char :=
  List.replicate (4 - (digitsOfNat n).length) ' ' ++ digitsOfNat n

/-- The indices visited by the rendering loop of `getSurroundingLines`:
`for i := start; i < end; i++` with `start := max 0 (lineNum-contextLines-1)`
and `end := min n (lineNum+contextLines)` (Go ints, modelled as `Int`). -/
def windowIdx (n : Nat) (lineNum contextLines : Int) : List Int :=
  let start := max 0 (lineNum - contextLines - 1)
  let stop := min (n : Int) (lineNum + contextLines)
  (List.range (stop - start).toNat).map (fun (j : Nat) => start + (j : Int))

/-- Go `getSurroundingLines` (src/internal/parser/parser.go, lines 86-105):
render the window of `contextLines` lines before/after the (1-indexed)
changed line, with a `>>> ` marker on the changed line, clamped to the
file bounds; return the empty string when the window is out of bounds. -/
def getSurroundingLines (content : List Char) (lineNum contextLines : Int) :
    List Char :=
  let lines := splitNl content
  let n : Int := lines.length
  let start := max 0 (lineNum - contextLines - 1)
  let stop := min n (lineNum + contextLines)
  if start ≥ n ∨ stop ≤ 0 then []
  else
    List.intercalate ['\n'] ((windowIdx lines.length lineNum contextLines).map
      (fun (i : Int) =>
        (if i = lineNum - 1 then ">>> ".data else "    ".data) ++
          pad4 (i + 1).toNat ++ ':' :: ' ' :: lines.getD i.toNat []))

/-- Go `AnalyzeCodeContext` (src/internal/parser/parser.go, lines 64-84):
store the changed lines as given and render a surrounding window for each
(both the tree-sitter and the fallback branch do exactly this). -/
def AnalyzeCodeContext (fileContent : List Char) (changedLines : List Int)
    (_filename : List Char) : CodeContext :=
  { ChangedLines := changedLines,
    Surrounding := changedLines.foldl
      (fun m lineNum =>
        mapInsert m lineNum (getSurroundingLines fileContent lineNum 5)) [] }

/-- C9: `getSurroundingLines` is memory-safe — every index visited by its
rendering loop lies within the bounds of the split line array (never
before the start nor past the end), and whenever the clamped window
`[max 0 (L-6), min n (L+5))` is empty (the changed line lies outside the
file) the function returns the empty string. -/
theorem getSurroundingLines_safe (content : List Char) (lineNum : Int) :
    (∀ i ∈ windowIdx (splitNl content).length lineNum 5,
        0 ≤ i ∧ i < ((splitNl content).length : Int)) ∧
      (max 0 (lineNum - 6) ≥
          min ((splitNl content).length : Int) (lineNum + 5) →
        getSurroundingLines content lineNum 5 = []) := by
  constructor
  · intro i hi
    simp only [windowIdx, List.mem_map, List.mem_range] at hi
    obtain ⟨j, hj, rfl⟩ := hi
    rw [Int.lt_toNat] at hj
    have h1 := le_max_left (0 : Int) (lineNum - 5 - 1)
    have h2 := min_le_left (((splitNl content).length : Int)) (lineNum + 5)
    omega
  · intro h
    simp only [getSurroundingLines]
    split
    · rfl
    · rename_i hguard
      exfalso
      omega

/-- Witness for C9: a one-line file with changed line 99 has an empty
clamped window, and the function returns the empty string. -/
theorem getSurroundingLines_safe_witness :
    getSurroundingLines "a".data 99 5 = [] :=
  (getSurroundingLines_safe "a".data 99).2 (by decide)

/-! ## C8: the changed-line sequence is ascending for well-formed diffs -/

/-- Hunk headers are well-formed relative to the running counter: every
matched header resets the counter to a value at least the current one,
and every increment happens strictly below `MaxInt64` so the 64-bit
counter never wraps (both true of every unified diff whose hunks appear
in ascending order with line numbers far from the int64 boundary, as
git produces them). -/
def wfHunks (k : Int) : List (List Char) → Bool
  | [] => true
  | line :: rest =>
      if line.take 2 = ['@', '@'] then
        match findHunkNum line with
        | some d =>
            if natOfDigits d ≤ maxInt64 then
              decide (k ≤ (natOfDigits d : Int)) &&
                wfHunks ((natOfDigits d : Int)) rest
            else wfHunks k rest
        | none => wfHunks k rest
      else if line.take 1 = ['+'] ∧ line.take 3 ≠ ['+', '+', '+'] then
        decide (k < (maxInt64 : Int)) && wfHunks (k + 1) rest
      else if line.take 1 = ['-'] ∧ line.take 3 ≠ ['-', '-', '-'] then
        wfHunks k rest
      else if line.take 1 = [' '] then
        decide (k < (maxInt64 : Int)) && wfHunks (k + 1) rest
      else wfHunks k rest

lemma wrap64_succ_of_lt {k : Int} (h0 : 0 ≤ k)
    (hlt : k < (maxInt64 : Int)) : wrap64 (k + 1) = k + 1 := by
  simp only [wrap64, maxInt64] at *
  omega

lemma parseChangedLinesGo_sorted (ls : List (List Char)) :
    ∀ k, 0 ≤ k → wfHunks k ls = true →
      (parseChangedLinesGo k ls).Pairwise (· < ·) ∧
        ∀ v ∈ parseChangedLinesGo k ls, k ≤ v := by
  induction ls with
  | nil => intro k _ _; simp [parseChangedLinesGo]
  | cons line rest ih =>
      intro k hk0 hwf
      rw [wfHunks] at hwf
      rw [parseChangedLinesGo]
      by_cases h1 : line.take 2 = ['@', '@']
      · rw [if_pos h1] at hwf ⊢
        cases hfd : findHunkNum line with
        | some d =>
            rw [hfd] at hwf
            replace hwf : (if natOfDigits d ≤ maxInt64 then
                decide (k ≤ (natOfDigits d : Int)) &&
                  wfHunks ((natOfDigits d : Int)) rest
              else wfHunks k rest) = true := hwf
            show List.Pairwise (· < ·) (if natOfDigits d ≤ maxInt64 then
                  parseChangedLinesGo ((natOfDigits d : Int)) rest
                else parseChangedLinesGo k rest) ∧
              ∀ v ∈ (if natOfDigits d ≤ maxInt64 then
                  parseChangedLinesGo ((natOfDigits d : Int)) rest
                else parseChangedLinesGo k rest), k ≤ v
            by_cases h2 : natOfDigits d ≤ maxInt64
            · rw [if_pos h2] at hwf ⊢
              simp only [Bool.and_eq_true, decide_eq_true_eq] at hwf
              obtain ⟨hk, hwf⟩ := hwf
              obtain ⟨hp, hm⟩ :=
                ih ((natOfDigits d : Int)) (Int.ofNat_nonneg _) hwf
              exact ⟨hp, fun v hv => le_trans hk (hm v hv)⟩
            · rw [if_neg h2] at hwf ⊢
              exact ih k hk0 hwf
        | none =>
            rw [hfd] at hwf
            exact ih k hk0 hwf
      · rw [if_neg h1] at hwf ⊢
        by_cases h2 : line.take 1 = ['+'] ∧ line.take 3 ≠ ['+', '+', '+']
        · rw [if_pos h2] at hwf ⊢
          simp only [Bool.and_eq_true, decide_eq_true_eq] at hwf
          obtain ⟨hklt, hwf⟩ := hwf
          rw [wrap64_succ_of_lt hk0 hklt]
          obtain ⟨hp, hm⟩ := ih (k + 1) (by omega) hwf
          refine ⟨List.pairwise_cons.mpr ⟨fun v hv => ?_, hp⟩, ?_⟩
          · have := hm v hv
            omega
          · intro v hv
            rcases List.mem_cons.mp hv with rfl | hv
            · exact le_refl _
            · have := hm v hv
              omega
        · rw [if_neg h2] at hwf ⊢
          by_cases h3 : line.take 1 = ['-'] ∧ line.take 3 ≠ ['-', '-', '-']
          · rw [if_pos h3] at hwf ⊢
            exact ih k hk0 hwf
          · rw [if_neg h3] at hwf ⊢
            by_cases h4 : line.take 1 = [' ']
            · rw [if_pos h4] at hwf ⊢
              simp only [Bool.and_eq_true, decide_eq_true_eq] at hwf
              obtain ⟨hklt, hwf⟩ := hwf
              rw [wrap64_succ_of_lt hk0 hklt]
              obtain ⟨hp, hm⟩ := ih (k + 1) (by omega) hwf
              refine ⟨hp, fun v hv => ?_⟩
              have := hm v hv
              omega
            · rw [if_neg h4] at hwf ⊢
              exact ih k hk0 hwf

/-- C8 (amended): for every diff whose matched hunk headers never reset
the counter backwards and whose running counter stays below `MaxInt64`
at every increment (both true of every well-formed unified diff, whose
hunks are listed in ascending order and whose line numbers are far from
the 64-bit boundary) — the changed-line sequence is strictly ascending,
hence duplicate-free, and `AnalyzeCodeContext` stores it unchanged in
the context's `ChangedLines` field. -/
theorem parseChangedLines_ascending (diff content fname : List Char)
    (h : wfHunks 0 (splitNl diff) = true) :
    (ParseChangedLines diff).Pairwise (· < ·) ∧
      (ParseChangedLines diff).Nodup ∧
      (AnalyzeCodeContext content (ParseChangedLines diff) fname).ChangedLines
        = ParseChangedLines diff := by
  obtain ⟨hp, _⟩ := parseChangedLinesGo_sorted (splitNl diff) 0 le_rfl h
  exact ⟨hp, hp.imp ne_of_lt, rfl⟩

/-- Witness for C8: the spec's own sample diff is well-formed and its
changed-line list `[11]` is strictly ascending and duplicate-free. -/
theorem parseChangedLines_ascending_witness :
    wfHunks 0 (splitNl "@@ -10,3 +10,4 @@\n ctx\n+added\n ctx2".data)
        = true ∧
      (ParseChangedLines "@@ -10,3 +10,4 @@\n ctx\n+added\n ctx2".data).Nodup
    := ⟨by decide,
      (parseChangedLines_ascending _ "x".data "f.ts".data (by decide)).2.1⟩

/-- Counterexample to C8 as stated: a diff text whose two hunk headers
both restart at line 3 makes `ParseChangedLines` return `[3, 3]`, which
is neither strictly ascending nor duplicate-free. -/
theorem parseChangedLines_ascending_cex :
    ¬ ((ParseChangedLines
          "@@ -1,1 +3,1 @@\n+x\n@@ -1,1 +3,1 @@\n+y".data).Pairwise (· < ·) ∧
        (ParseChangedLines
          "@@ -1,1 +3,1 @@\n+x\n@@ -1,1 +3,1 @@\n+y".data).Nodup) := by
  decide

/-! ## Change enumeration (src/internal/git/git.go) -/

/-- Go `countPrefix` (src/internal/git/git.go, lines 161-169): count the
lines of `diff` whose first byte is `prefix` — note that this includes
the `+++`/`---` header lines. -/
def countPrefix (diff : List Char) (p : Char) : Nat :=
  ((splitNl diff).filter (fun line =>
    match line with
    | [] => false
    | c :: _ => c = p)).length

/-- The record construction of `LocalChanges` (src/internal/git/git.go,
lines 38-48) for one changed path with a non-empty diff text: both paths
are the listed path and the counts come from `countPrefix`. -/
def localChangesRecord (file diffText : List Char) : FileDiff :=
  { OldPath := file, NewPath := file, Diff := diffText,
    Additions := countPrefix diffText '+',
    Deletions := countPrefix diffText '-',
    Language := [] }

/-- The count the spec describes: lines starting with `c` but excluding
those starting with three repetitions of `c` (the `+++`/`---` header). -/
def countPrefixExclHeader (diff : List Char) (c : Char) : Nat :=
  ((splitNl diff).filter (fun line =>
    line.take 1 = [c] ∧ line.take 3 ≠ [c, c, c])).length

/-- Spec-side count of "lines starting with `c`" (keeping every such
line). -/
def countLinesStartingWith (diff : List Char) (c : Char) : Nat :=
  ((splitNl diff).filter (fun line => line.take 1 = [c])).length

/-- Counterexample to C3 as stated: on a realistic diff text with
`---`/`+++` header lines, the stored `Additions`/`Deletions` counts are
NOT the counts excluding the header lines — `countPrefix` also counts
`+++ b/f.ts` and `--- a/f.ts`. -/
theorem localChanges_counts_cex :
    ¬ ((localChangesRecord "f.ts".data
          "--- a/f.ts\n+++ b/f.ts\n@@ -1,1 +1,2 @@\n line\n+new".data).Additions =
        countPrefixExclHeader
          "--- a/f.ts\n+++ b/f.ts\n@@ -1,1 +1,2 @@\n line\n+new".data '+' ∧
      (localChangesRecord "f.ts".data
          "--- a/f.ts\n+++ b/f.ts\n@@ -1,1 +1,2 @@\n line\n+new".data).Deletions =
        countPrefixExclHeader
          "--- a/f.ts\n+++ b/f.ts\n@@ -1,1 +1,2 @@\n line\n+new".data '-') := by
  decide

/-- C3 (amended): for every changed-file record produced by the record
construction of `LocalChanges`, the stored `Additions` count equals the
number of diff-text lines starting with `+` INCLUDING the `+++` header
line (every line whose first character is `+`), and `Deletions` likewise
counts every line starting with `-`, including `---`. -/
theorem localChanges_counts (file diffText : List Char) :
    (localChangesRecord file diffText).Additions =
        countLinesStartingWith diffText '+' ∧
      (localChangesRecord file diffText).Deletions =
        countLinesStartingWith diffText '-' := by
  constructor <;>
  · show countPrefix _ _ = _
    unfold countPrefix countLinesStartingWith
    congr 1
    refine List.filter_congr fun line _ => ?_
    cases line with
    | nil => simp
    | cons c rest => simp [List.take]

/-! ## Eligibility filter (src/internal/filter/filter.go) -/

/-- Go `hasAnySuffix` (src/internal/filter/filter.go): byte-slice suffix
comparison `path[len(path)-len(suffix):] == suffix` guarded by a length
check, over a list of candidate suffixes. -/
def hasAnySuffix (path : List Char) (suffixes : List (List Char)) : Bool :=
  suffixes.any fun s =>
    decide (path.length ≥ s.length) && path.drop (path.length - s.length) == s

/-- Go `strings.Contains(hay, needle)`: the needle occurs as a contiguous
substring. -/
def containsSub (needle : List Char) : List Char → Bool
  | [] => needle.isEmpty
  | c :: rest => needle.isPrefixOf (c :: rest) || containsSub needle rest

/-- Go `containsAny` (src/internal/filter/filter.go): some non-empty needle
occurs in the path. -/
def containsAny (path : List Char) (needles : List (List Char)) : Bool :=
  needles.any fun n => !n.isEmpty && containsSub n path

/-- The path resolution of `FilterEligible`: the new path, falling back
to the old path when the new path is empty. -/
def resolvedPath (d : FileDiff) : List Char :=
  if d.NewPath = [] then d.OldPath else d.NewPath

/-- Go `shouldSkip` (src/internal/filter/filter.go, lines 29-41). -/
def shouldSkip (path : List Char) : Bool :=
  if path = [] then true
  else if hasAnySuffix path [".md".data, ".json".data] then true
  else if containsAny path
      ["node_modules".data, "dist".data, ".gitlab".data] then true
  else !(hasAnySuffix path
    [".ts".data, ".tsx".data, ".js".data, ".jsx".data])

/-- The loop of `FilterEligible` (src/internal/filter/filter.go, lines
9-27), carrying the length of the result accumulated so far; the `break`
fires right after the append that reaches the cap. -/
def filterEligibleGo (limit : Nat) : List FileDiff → Nat → List FileDiff
  | [], _ => []
  | d :: ds, cnt =>
      if shouldSkip (resolvedPath d) then filterEligibleGo limit ds cnt
      else if 0 < limit ∧ cnt + 1 ≥ limit then [d]
      else d :: filterEligibleGo limit ds (cnt + 1)

/-- Go `FilterEligible` (src/internal/filter/filter.go). -/
def FilterEligible (files : List FileDiff) (limit : Nat) : List FileDiff :=
  filterEligibleGo limit files 0

lemma suffixCheck_iff (path s : List Char) :
    (decide (path.length ≥ s.length) &&
        path.drop (path.length - s.length) == s) = true ↔ s <:+ path := by
  simp only [Bool.and_eq_true, decide_eq_true_eq, beq_iff_eq, ge_iff_le]
  constructor
  · rintro ⟨hlen, hdrop⟩
    exact ⟨path.take (path.length - s.length),
      by conv_rhs => rw [← List.take_append_drop (path.length - s.length) path]
         rw [hdrop]⟩
  · rintro ⟨t, rfl⟩
    refine ⟨by simp, ?_⟩
    rw [List.length_append, Nat.add_sub_cancel, List.drop_left]

lemma containsSub_iff (n hay : List Char) :
    containsSub n hay = true ↔ n <:+: hay := by
  induction hay with
  | nil => simp [containsSub, List.isEmpty_iff, List.infix_nil]
  | cons c rest ih =>
      simp [containsSub, List.infix_cons_iff, ih,
        List.isPrefixOf_iff_prefix]

lemma hasAnySuffix_eq_true (path : List Char) (ss : List (List Char)) :
    hasAnySuffix path ss = true ↔ ∃ s ∈ ss, s <:+ path := by
  rw [hasAnySuffix, List.any_eq_true]
  constructor
  · rintro ⟨s, hs, hchk⟩
    exact ⟨s, hs, (suffixCheck_iff _ _).mp hchk⟩
  · rintro ⟨s, hs, hsuf⟩
    exact ⟨s, hs, (suffixCheck_iff _ _).mpr hsuf⟩

lemma containsAny_eq_true (path : List Char) (ns : List (List Char)) :
    containsAny path ns = true ↔ ∃ n ∈ ns, n ≠ [] ∧ n <:+: path := by
  rw [containsAny, List.any_eq_true]
  constructor
  · rintro ⟨n, hn, hb⟩
    rw [Bool.and_eq_true] at hb
    refine ⟨n, hn, ?_, (containsSub_iff _ _).mp hb.2⟩
    rintro rfl
    simp at hb
  · rintro ⟨n, hn, hne, hinf⟩
    refine ⟨n, hn, Bool.and_eq_true _ _ |>.mpr ⟨?_, (containsSub_iff _ _).mpr hinf⟩⟩
    cases n with
    | nil => exact absurd rfl hne
    | cons a l => rfl

lemma shouldSkip_eq_false_iff (path : List Char) :
    shouldSkip path = false ↔
      path ≠ [] ∧
        ¬ (".md".data <:+ path) ∧ ¬ (".json".data <:+ path) ∧
        ¬ ("node_modules".data <:+: path) ∧ ¬ ("dist".data <:+: path) ∧
        ¬ (".gitlab".data <:+: path) ∧
        (".ts".data <:+ path ∨ ".tsx".data <:+ path ∨
          ".js".data <:+ path ∨ ".jsx".data <:+ path) := by
  unfold shouldSkip
  split_ifs with h0 h1 h2
  · simp [h0]
  · rw [hasAnySuffix_eq_true] at h1
    simp only [List.mem_cons, List.not_mem_nil, or_false,
      exists_eq_or_imp, exists_eq_left] at h1
    constructor
    · intro h; cases h
    · rintro ⟨-, hmd, hjson, -⟩; tauto
  · rw [containsAny_eq_true] at h2
    simp only [List.mem_cons, List.not_mem_nil, or_false,
      exists_eq_or_imp, exists_eq_left] at h2
    constructor
    · intro h; cases h
    · rintro ⟨-, -, -, hnm, hdist, hgl, -⟩; tauto
  · rw [hasAnySuffix_eq_true] at h1
    rw [containsAny_eq_true] at h2
    simp only [List.mem_cons, List.not_mem_nil, or_false,
      exists_eq_or_imp, exists_eq_left] at h1 h2
    push_neg at h1 h2
    rw [Bool.not_eq_false', hasAnySuffix_eq_true]
    simp only [List.mem_cons, List.not_mem_nil, or_false,
      exists_eq_or_imp, exists_eq_left]
    constructor
    · intro h
      exact ⟨h0, h1.1, h1.2, fun hc => absurd hc (h2.1 (by simp)),
        fun hc => absurd hc (h2.2.1 (by simp)),
        fun hc => absurd hc (h2.2.2 (by simp)), h⟩
    · rintro ⟨-, -, -, -, -, -, h⟩; exact h

lemma filterEligibleGo_sublist (limit : Nat) (ds : List FileDiff) :
    ∀ cnt, (filterEligibleGo limit ds cnt).Sublist ds := by
  induction ds with
  | nil => intro cnt; simp [filterEligibleGo]
  | cons d rest ih =>
      intro cnt
      rw [filterEligibleGo]
      split_ifs with h1 h2
      · exact (ih cnt).cons d
      · exact List.Sublist.cons₂ d (List.nil_sublist rest)
      · exact (ih (cnt + 1)).cons₂ d

lemma filterEligibleGo_mem (limit : Nat) (ds : List FileDiff) :
    ∀ cnt d, d ∈ filterEligibleGo limit ds cnt →
      shouldSkip (resolvedPath d) = false := by
  induction ds with
  | nil => intro cnt d hd; simp [filterEligibleGo] at hd
  | cons a rest ih =>
      intro cnt d hd
      rw [filterEligibleGo] at hd
      split_ifs at hd with h1 h2
      · exact ih cnt d hd
      · simp only [List.mem_singleton] at hd
        subst hd
        exact Bool.not_eq_true _ ▸ h1
      · rcases List.mem_cons.mp hd with rfl | hd
        · exact Bool.not_eq_true _ ▸ h1
        · exact ih (cnt + 1) d hd

lemma filterEligibleGo_length (limit : Nat) (ds : List FileDiff)
    (hl : 0 < limit) :
    ∀ cnt, cnt < limit → (filterEligibleGo limit ds cnt).length ≤ limit - cnt := by
  induction ds with
  | nil => intro cnt _; simp [filterEligibleGo]
  | cons d rest ih =>
      intro cnt hcnt
      rw [filterEligibleGo]
      split_ifs with h1 h2
      · exact ih cnt hcnt
      · simp only [List.length_singleton]
        omega
      · have hlt : cnt + 1 < limit := by
          rcases Nat.lt_or_ge (cnt + 1) limit with h | h
          · exact h
          · exact absurd ⟨hl, h⟩ h2
        have := ih (cnt + 1) hlt
        simp only [List.length_cons]
        omega

lemma filterEligibleGo_zero (ds : List FileDiff) :
    ∀ cnt, filterEligibleGo 0 ds cnt =
      ds.filter fun d => !shouldSkip (resolvedPath d) := by
  induction ds with
  | nil => intro cnt; simp [filterEligibleGo]
  | cons d rest ih =>
      intro cnt
      rw [filterEligibleGo, List.filter_cons]
      by_cases h1 : shouldSkip (resolvedPath d) = true
      · rw [if_pos h1]
        simp [h1, ih cnt]
      · rw [if_neg h1,
          if_neg (show ¬ (0 < 0 ∧ cnt + 1 ≥ 0) by
            rintro ⟨h, -⟩; exact absurd h (lt_irrefl 0))]
        have h1' : shouldSkip (resolvedPath d) = false := by
          simpa using h1
        simp [h1', ih (cnt + 1)]

/-- C4: `FilterEligible` returns only records whose resolved path is
non-empty, does not end in `.md`/`.json`, contains none of the
vendored/build markers, and ends in one of the four recognised
extensions; the output is a subsequence of the input, its length never
exceeds a positive cap, and a cap of 0 imposes no limit. -/
theorem filterEligible_spec (files : List FileDiff) (limit : Nat) :
    (FilterEligible files limit).Sublist files ∧
      (∀ d ∈ FilterEligible files limit,
        resolvedPath d ≠ [] ∧
          ¬ (".md".data <:+ resolvedPath d) ∧
          ¬ (".json".data <:+ resolvedPath d) ∧
          ¬ ("node_modules".data <:+: resolvedPath d) ∧
          ¬ ("dist".data <:+: resolvedPath d) ∧
          ¬ (".gitlab".data <:+: resolvedPath d) ∧
          (".ts".data <:+ resolvedPath d ∨ ".tsx".data <:+ resolvedPath d ∨
            ".js".data <:+ resolvedPath d ∨
            ".jsx".data <:+ resolvedPath d)) ∧
      (0 < limit → (FilterEligible files limit).length ≤ limit) ∧
      (limit = 0 → FilterEligible files limit =
        files.filter fun d => !shouldSkip (resolvedPath d)) := by
  refine ⟨filterEligibleGo_sublist limit files 0, ?_, ?_, ?_⟩
  · intro d hd
    exact (shouldSkip_eq_false_iff _).mp (filterEligibleGo_mem limit files 0 d hd)
  · intro hl
    simpa using filterEligibleGo_length limit files hl 0 hl
  · rintro rfl
    exact filterEligibleGo_zero files 0

/-- Witness for C4: a concrete input with an eligible `.ts` file, a
markdown file and a `node_modules` file, under cap 1, keeps exactly the
eligible file. -/
theorem filterEligible_spec_witness :
    (FilterEligible
        [⟨[], "a.md".data, [], 0, 0, []⟩,
         ⟨[], "src/a.ts".data, [], 1, 0, []⟩,
         ⟨[], "node_modules/b.ts".data, [], 1, 0, []⟩] 1).length ≤ 1 ∧
      FilterEligible
        [⟨[], "a.md".data, [], 0, 0, []⟩,
         ⟨[], "src/a.ts".data, [], 1, 0, []⟩,
         ⟨[], "node_modules/b.ts".data, [], 1, 0, []⟩] 1 =
        [⟨[], "src/a.ts".data, [], 1, 0, []⟩] :=
  ⟨(filterEligible_spec
      [⟨[], "a.md".data, [], 0, 0, []⟩,
       ⟨[], "src/a.ts".data, [], 1, 0, []⟩,
       ⟨[], "node_modules/b.ts".data, [], 1, 0, []⟩] 1).2.2.1 (by decide),
    by decide⟩

/-! ## Output word-wrapping (src/internal/output/output.go) -/

/-- Go `unicode.IsSpace` restricted to the Latin-1 range documented by Go
(`\t \n \v \f \r space U+0085 U+00A0`); the tool's comments are ASCII, so
the wider Unicode space classes are not modelled. -/
def goIsSpace (c : Char) : Bool :=
  c == ' ' || c == '\t' || c == '\n' || c == '\x0b' || c == '\x0c' ||
    c == '\r' || c == '\u0085' || c == '\u00A0'

/-- The scanner behind `strings.Fields`: split into maximal runs of
non-space characters, carrying the (reversed) current word. -/
def fieldsAux : List Char → List Char → List (List Char)
  | [], acc => if acc.isEmpty then [] else [acc.reverse]
  | c :: cs, acc =>
      if goIsSpace c then
        if acc.isEmpty then fieldsAux cs []
        else acc.reverse :: fieldsAux cs []
      else fieldsAux cs (c :: acc)

/-- Go `strings.Fields`: the whitespace-separated words of a string. -/
def fieldsGo (s : List Char) : List (List Char) := fieldsAux s []

/-- Go `strings.Join(elems, sep)` for a one-character separator. -/
def joinSep (sep : Char) : List (List Char) → List Char
  | [] => []
  | [w] => w
  | w :: ws => w ++ sep :: joinSep sep ws

/-- The loop of `wordWrap` (src/internal/output/output.go, lines
108-139): accumulate words into the current line, flushing when adding
the next word (plus a separating space) would exceed the width; word
lengths are byte lengths in Go, character counts here (identical for
ASCII). -/
def wordWrapGo (width : Nat) :
    List (List Char) → List (List Char) → Nat → List (List (List Char))
  | [], cur, _ => if cur.isEmpty then [] else [cur]
  | w :: rest, cur, curLen =>
      if curLen > 0 ∧ curLen + w.length + 1 > width then
        cur :: wordWrapGo width rest [w] w.length
      else
        wordWrapGo width rest (cur ++ [w])
          ((if curLen > 0 then curLen + 1 else curLen) + w.length)

/-- Go `wordWrap` (src/internal/output/output.go): wrap the text at the
given column width, returning the input unchanged when it has no words. -/
def wordWrap (text : List Char) (width : Nat) : List Char :=
  if (fieldsGo text).isEmpty then text
  else joinSep '\n' ((wordWrapGo width (fieldsGo text) [] 0).map (joinSep ' '))

lemma wordWrapGo_flatten (width : Nat) (ws : List (List Char)) :
    ∀ cur curLen, (wordWrapGo width ws cur curLen).flatten = cur ++ ws := by
  induction ws with
  | nil =>
      intro cur curLen
      rw [wordWrapGo]
      by_cases h : cur.isEmpty
      · rw [if_pos h, List.isEmpty_iff.mp h]; rfl
      · rw [if_neg h]; simp
  | cons w rest ih =>
      intro cur curLen
      rw [wordWrapGo]
      by_cases h1 : curLen > 0 ∧ curLen + w.length + 1 > width
      · rw [if_pos h1]; simp [ih]
      · rw [if_neg h1]; simp [ih]

/-- Every word of `fieldsAux` is nonempty and space-free. -/
lemma fieldsAux_ok (s : List Char) :
    ∀ acc, (∀ c ∈ acc, goIsSpace c = false) →
      ∀ w ∈ fieldsAux s acc, w ≠ [] ∧ ∀ c ∈ w, goIsSpace c = false := by
  induction s with
  | nil =>
      intro acc hacc w hw
      rw [fieldsAux] at hw
      by_cases h : acc.isEmpty
      · rw [if_pos h] at hw; cases hw
      · rw [if_neg h] at hw
        simp only [List.mem_singleton] at hw
        subst hw
        refine ⟨?_, fun c hc => hacc c (List.mem_reverse.mp hc)⟩
        intro hnil
        exact h (by simp [List.isEmpty_iff, ← List.reverse_eq_nil_iff, hnil])
  | cons c cs ih =>
      intro acc hacc w hw
      rw [fieldsAux] at hw
      split_ifs at hw with h1 h2
      · exact ih [] (by simp) w hw
      · rcases List.mem_cons.mp hw with rfl | hw
        · refine ⟨?_, fun x hx => hacc x (List.mem_reverse.mp hx)⟩
          intro hnil
          exact h2 (by simp [List.isEmpty_iff, ← List.reverse_eq_nil_iff, hnil])
        · exact ih [] (by simp) w hw
      · refine ih (c :: acc) ?_ w hw
        intro x hx
        rcases List.mem_cons.mp hx with rfl | hx
        · exact Bool.not_eq_true _ ▸ h1
        · exact hacc x hx

/-- Scanning a space-free word accumulates it. -/
lemma fieldsAux_word (w : List Char) (hw : ∀ c ∈ w, goIsSpace c = false) :
    ∀ rest acc, fieldsAux (w ++ rest) acc = fieldsAux rest (w.reverse ++ acc) := by
  induction w with
  | nil => intro rest acc; simp
  | cons c cs ih =>
      intro rest acc
      have hc : goIsSpace c = false := hw c (by simp)
      rw [List.cons_append, fieldsAux, if_neg (by simp [hc])]
      rw [ih (fun x hx => hw x (by simp [hx])) rest (c :: acc)]
      simp

lemma fieldsAux_joinSp_cont (c : Char) (hc : goIsSpace c = true) :
    ∀ (ws : List (List Char)), ws ≠ [] →
      (∀ w ∈ ws, w ≠ [] ∧ ∀ x ∈ w, goIsSpace x = false) →
      ∀ T, fieldsAux (joinSep ' ' ws ++ c :: T) [] = ws ++ fieldsAux T [] := by
  intro ws
  induction ws with
  | nil => intro h; exact absurd rfl h
  | cons w ws' ih =>
      intro _ hok T
      cases ws' with
      | nil =>
          have hw := hok w (by simp)
          rw [show joinSep ' ' [w] = w from rfl,
            fieldsAux_word w hw.2 (c :: T) []]
          rw [fieldsAux, if_pos hc,
            if_neg (by simp [List.isEmpty_iff, hw.1])]
          simp
      | cons v vs =>
          have hw := hok w (by simp)
          rw [show joinSep ' ' (w :: v :: vs) = w ++ ' ' :: joinSep ' ' (v :: vs)
              from rfl]
          rw [List.append_assoc, List.cons_append,
            fieldsAux_word w hw.2 (' ' :: (joinSep ' ' (v :: vs) ++ c :: T)) []]
          rw [fieldsAux, if_pos (by decide),
            if_neg (by simp [List.isEmpty_iff, hw.1])]
          rw [ih (by simp) (fun x hx => hok x (by simp [hx])) T]
          simp

lemma fieldsAux_joinSp_end :
    ∀ (ws : List (List Char)), ws ≠ [] →
      (∀ w ∈ ws, w ≠ [] ∧ ∀ x ∈ w, goIsSpace x = false) →
      fieldsAux (joinSep ' ' ws) [] = ws := by
  intro ws
  induction ws with
  | nil => intro h; exact absurd rfl h
  | cons w ws' ih =>
      intro _ hok
      cases ws' with
      | nil =>
          have hw := hok w (by simp)
          rw [show joinSep ' ' [w] = w from rfl]
          rw [show (w : List Char) = w ++ [] by simp,
            fieldsAux_word w hw.2 [] []]
          rw [fieldsAux, if_neg (by simp [List.isEmpty_iff, hw.1])]
          simp
      | cons v vs =>
          have hw := hok w (by simp)
          rw [show joinSep ' ' (w :: v :: vs) = w ++ ' ' :: joinSep ' ' (v :: vs)
              from rfl]
          rw [fieldsAux_word w hw.2 (' ' :: joinSep ' ' (v :: vs)) []]
          rw [fieldsAux, if_pos (by decide),
            if_neg (by simp [List.isEmpty_iff, hw.1])]
          rw [ih (by simp) (fun x hx => hok x (by simp [hx]))]
          simp

/-- Re-scanning the newline-joined, space-joined lines recovers exactly
the flattened words. -/
lemma fieldsGo_render (L : List (List (List Char)))
    (hL : ∀ line ∈ L, line ≠ [] ∧
      ∀ w ∈ line, w ≠ [] ∧ ∀ x ∈ w, goIsSpace x = false) :
    fieldsGo (joinSep '\n' (L.map (joinSep ' '))) = L.flatten := by
  induction L with
  | nil => rfl
  | cons l L' ih =>
      have hl := hL l (by simp)
      cases L' with
      | nil =>
          show fieldsAux (joinSep '\n' [joinSep ' ' l]) [] = l ++ []
          rw [show joinSep '\n' [joinSep ' ' l] = joinSep ' ' l from rfl,
            fieldsAux_joinSp_end l hl.1 hl.2]
          simp
      | cons m M =>
          show fieldsAux
              (joinSep '\n' (joinSep ' ' l :: (m :: M).map (joinSep ' '))) []
            = l ++ (m :: M).flatten
          rw [show joinSep '\n' (joinSep ' ' l :: (m :: M).map (joinSep ' ')) =
              joinSep ' ' l ++ '\n' ::
                joinSep '\n' ((m :: M).map (joinSep ' ')) by
            cases hm : (m :: M).map (joinSep ' ') with
            | nil => simp at hm
            | cons p ps => rfl]
          rw [fieldsAux_joinSp_cont '\n' (by decide) l hl.1 hl.2]
          rw [show fieldsAux (joinSep '\n' ((m :: M).map (joinSep ' '))) [] =
              fieldsGo (joinSep '\n' ((m :: M).map (joinSep ' '))) from rfl]
          rw [ih (fun x hx => hL x (by simp [hx]))]

/-- Lines produced by the wrapping loop are nonempty lists of nonempty
space-free words. -/
lemma wordWrapGo_lines_ok (width : Nat) (ws : List (List Char))
    (hws : ∀ w ∈ ws, w ≠ [] ∧ ∀ x ∈ w, goIsSpace x = false) :
    ∀ cur curLen,
      (∀ w ∈ cur, w ≠ [] ∧ ∀ x ∈ w, goIsSpace x = false) →
      (curLen > 0 → cur ≠ []) →
      ∀ line ∈ wordWrapGo width ws cur curLen,
        line ≠ [] ∧ ∀ w ∈ line, w ≠ [] ∧ ∀ x ∈ w, goIsSpace x = false := by
  induction ws with
  | nil =>
      intro cur curLen hcur _ line hline
      rw [wordWrapGo] at hline
      by_cases h : cur.isEmpty
      · rw [if_pos h] at hline; cases hline
      · rw [if_neg h] at hline
        simp only [List.mem_singleton] at hline
        subst hline
        exact ⟨fun hnil => h (by simp [hnil]), hcur⟩
  | cons w rest ih =>
      intro cur curLen hcur hpos line hline
      have hwword := hws w (by simp)
      have hrest : ∀ v ∈ rest, v ≠ [] ∧ ∀ x ∈ v, goIsSpace x = false :=
        fun v hv => hws v (by simp [hv])
      rw [wordWrapGo] at hline
      by_cases h1 : curLen > 0 ∧ curLen + w.length + 1 > width
      · rw [if_pos h1] at hline
        rcases List.mem_cons.mp hline with rfl | hline
        · exact ⟨hpos h1.1, hcur⟩
        · refine ih hrest [w] w.length ?_ ?_ line hline
          · intro v hv
            rcases List.mem_singleton.mp hv with rfl
            exact hwword
          · intro _; simp
      · rw [if_neg h1] at hline
        refine ih hrest (cur ++ [w]) _ ?_ ?_ line hline
        · intro v hv
          rcases List.mem_append.mp hv with hv | hv
          · exact hcur v hv
          · rcases List.mem_singleton.mp hv with rfl
            exact hwword
        · intro _; simp

/-- An over-wide accumulated line is flushed as-is. -/
lemma wordWrapGo_cur_mem (width : Nat) (ws : List (List Char)) :
    ∀ cur curLen, curLen > width → cur ≠ [] →
      cur ∈ wordWrapGo width ws cur curLen := by
  induction ws with
  | nil =>
      intro cur curLen _ hne
      rw [wordWrapGo, if_neg (by simp [List.isEmpty_iff, hne])]
      simp
  | cons w rest ih =>
      intro cur curLen hbig hne
      rw [wordWrapGo, if_pos ⟨by omega, by omega⟩]
      simp

/-- A word longer than the width always ends up alone on a line. -/
lemma wordWrapGo_long_mem (width : Nat) (ws : List (List Char))
    (hws : ∀ w ∈ ws, w ≠ []) :
    ∀ cur curLen, (curLen = 0 → cur = []) → (curLen > 0 → cur ≠ []) →
      ∀ w ∈ ws, width < w.length → [w] ∈ wordWrapGo width ws cur curLen := by
  induction ws with
  | nil => intro _ _ _ _ w hw; cases hw
  | cons v rest ih =>
      intro cur curLen hzero hpos w hw hlong
      have hrest : ∀ u ∈ rest, u ≠ [] := fun u hu => hws u (by simp [hu])
      rcases List.mem_cons.mp hw with rfl | hw
      · rw [wordWrapGo]
        by_cases h1 : curLen > 0
        · rw [if_pos ⟨h1, by omega⟩]
          exact List.mem_cons_of_mem _
            (wordWrapGo_cur_mem width rest [w] w.length hlong (by simp))
        · have hcl : curLen = 0 := by omega
          rw [if_neg (by rintro ⟨h, -⟩; exact h1 h), hzero hcl, hcl]
          simpa using
            wordWrapGo_cur_mem width rest [w] w.length hlong (by simp)
      · have hvlen : 0 < v.length :=
          List.length_pos.mpr (hws v (by simp))
        rw [wordWrapGo]
        by_cases h1 : curLen > 0 ∧ curLen + v.length + 1 > width
        · rw [if_pos h1]
          exact List.mem_cons_of_mem _
            (ih hrest [v] v.length (by omega) (fun _ => by simp) w hw hlong)
        · rw [if_neg h1]
          have hposlen :
              0 < (if curLen > 0 then curLen + 1 else curLen) + v.length := by
            split_ifs <;> omega
          exact ih hrest (cur ++ [v]) _
            (fun h => absurd h hposlen.ne') (fun _ => by simp) w hw hlong

/-- No newline occurs in a space-joined line of space-free words. -/
lemma nl_not_mem_joinSp (l : List (List Char))
    (hl : ∀ w ∈ l, ∀ x ∈ w, goIsSpace x = false) : '\n' ∉ joinSep ' ' l := by
  induction l with
  | nil => simp [joinSep]
  | cons w ws ih =>
      cases ws with
      | nil =>
          intro hmem
          have := hl w (by simp) '\n' hmem
          simp [goIsSpace] at this
      | cons v vs =>
          intro hmem
          rw [show joinSep ' ' (w :: v :: vs) = w ++ ' ' :: joinSep ' ' (v :: vs)
            from rfl] at hmem
          rcases List.mem_append.mp hmem with h | h
          · have := hl w (by simp) '\n' h
            simp [goIsSpace] at this
          · rcases List.mem_cons.mp h with h | h
            · cases h
            · exact ih (fun u hu => hl u (by simp [hu])) h

lemma splitNl_no_nl (l : List Char) (h : '\n' ∉ l) : splitNl l = [l] := by
  induction l with
  | nil => rfl
  | cons c cs ih =>
      rw [splitNl, if_neg (by rintro rfl; exact h (by simp)),
        ih (fun hc => h (by simp [hc]))]

lemma splitNl_append_nl (l : List Char) (h : '\n' ∉ l) (T : List Char) :
    splitNl (l ++ '\n' :: T) = l :: splitNl T := by
  induction l with
  | nil => simp [splitNl]
  | cons c cs ih =>
      rw [List.cons_append, splitNl,
        if_neg (by rintro rfl; exact h (by simp)),
        ih (fun hc => h (by simp [hc]))]

lemma splitNl_joinSep (L : List (List Char)) (hne : L ≠ [])
    (hL : ∀ l ∈ L, '\n' ∉ l) : splitNl (joinSep '\n' L) = L := by
  induction L with
  | nil => exact absurd rfl hne
  | cons l L' ih =>
      cases L' with
      | nil =>
          rw [show joinSep '\n' [l] = l from rfl,
            splitNl_no_nl l (hL l (by simp))]
      | cons m M =>
          rw [show joinSep '\n' (l :: m :: M) = l ++ '\n' :: joinSep '\n' (m :: M)
              from rfl,
            splitNl_append_nl l (hL l (by simp)),
            ih (by simp) (fun x hx => hL x (by simp [hx]))]

/-- C10: `wordWrap` at width 76 emits exactly the whitespace-separated
words of the input, in order, none dropped, duplicated, split or
truncated; consequently a word longer than 76 characters appears
unbroken as a whole output line (so an output line may exceed the
width). -/
theorem wordWrap_preserves_words (text : List Char) :
    fieldsGo (wordWrap text 76) = fieldsGo text ∧
      ∀ w ∈ fieldsGo text, 76 < w.length → w ∈ splitNl (wordWrap text 76) := by
  have hok : ∀ w ∈ fieldsGo text, w ≠ [] ∧ ∀ x ∈ w, goIsSpace x = false :=
    fieldsAux_ok text [] (by simp)
  by_cases hempty : (fieldsGo text).isEmpty
  · rw [wordWrap, if_pos hempty]
    refine ⟨rfl, fun w hw _ => ?_⟩
    rw [List.isEmpty_iff.mp hempty] at hw
    cases hw
  · have hlines := wordWrapGo_lines_ok 76 (fieldsGo text) hok [] 0
      (by simp) (by simp)
    rw [wordWrap, if_neg hempty]
    constructor
    · rw [fieldsGo_render _ hlines, wordWrapGo_flatten]
      rfl
    · intro w hw hlong
      have hmem : [w] ∈ wordWrapGo 76 (fieldsGo text) [] 0 :=
        wordWrapGo_long_mem 76 (fieldsGo text)
          (fun u hu => (hok u hu).1) [] 0 (fun _ => rfl)
          (by simp) w hw hlong
      rw [splitNl_joinSep _ ?_ ?_]
      · exact List.mem_map.mpr ⟨[w], hmem, rfl⟩
      · intro hcontra
        rw [List.map_eq_nil_iff] at hcontra
        rw [hcontra] at hmem
        cases hmem
      · intro l hl
        rcases List.mem_map.mp hl with ⟨line, hline, rfl⟩
        exact nl_not_mem_joinSp line ((hlines line hline).2 · · |>.2 ·)

/-- Witness for C10: an 80-character word survives wrapping and appears
as a whole line of the output. -/
theorem wordWrap_preserves_words_witness :
    List.replicate 80 'a' ∈
      splitNl (wordWrap ("hi ".data ++ List.replicate 80 'a') 76) :=
  (wordWrap_preserves_words ("hi ".data ++ List.replicate 80 'a')).2
    (List.replicate 80 'a') (by decide) (by decide)

/-! ## Prompt assembly (src/internal/ai/client.go, buildBatchPrompt) -/

/-- The fixed preamble written before the guideline text. -/
def promptPreamble : List Char :=
  ("# Code Review Task - Multiple Files\n\n" ++
   "You are a deterministic senior software engineer performing a code review. You must produce IDENTICAL results for identical inputs.\n" ++
   "Review ALL files ONLY against the Scaleway best practices provided below.\n" ++
   "DO NOT use subjective judgment - only report violations that directly match the rules.\n\n" ++
   "## Scaleway Best Practices\n").data

/-- The header between the guideline text and the per-file sections. -/
def filesHeaderText : List Char := "\n## Files Being Reviewed\n\n".data

/-- The fixed instruction block appended after the per-file sections. -/
def promptInstructions : List Char :=
  ("\n## CRITICAL Instructions - Follow Exactly\n\n" ++
   "1. Review ALL files in the order presented above\n" ++
   "2. For each file, analyze ONLY the changed lines (lines starting with + in the diff)\n" ++
   "3. Check if code violates ANY specific rule from the best practices\n" ++
   "4. DO NOT report issues based on general coding style or personal preference\n" ++
   "5. BE CONSISTENT: The same code violation must ALWAYS produce the same comment\n" ++
   "6. For each violation found, you MUST provide:\n" ++
   "   - **filePath**: The exact file path as shown above\n" ++
   "   - **line**: The exact line number from the diff where the violation occurs\n" ++
   "   - **severity**: One of: \"Question blocking:\", \"Question Non blocking:\", \"Issue\", \"Suggestion blocking:\", \"Suggestion non blocking:\"\n" ++
   "   - **comment**: State which specific rule was violated, quote the relevant rule text, and explain how to fix it\n\n" ++
   "## Response Format - MANDATORY\n\n" ++
   "You MUST respond with ONLY valid JSON in this EXACT format (no additional text before or after):\n\n" ++
   "```json\n\x7b\n  \"comments\": [\n    \x7b\n      \"filePath\": \"exact/file/path.ts\",\n      \"line\": 42,\n      \"severity\": \"Issue\",\n      \"comment\": \"Violates rule X from best practices: [quote rule]. Fix by doing Y.\"\n    \x7d\n  ],\n  \"summary\": \"Found N violations across M files. Main issues: ...\"\n\x7d\n```\n\n" ++
   "IMPORTANT:\n" ++
   "- If NO violations found, return: \x7b\"comments\": [], \"summary\": \"No violations found\"\x7d\n" ++
   "- Review files in order from File 1 to File N\n" ++
   "- Always use the same severity for the same type of violation\n" ++
   "- Always phrase comments the same way for identical violations\n").data

/-- The changed-line numbers whose context blocks are rendered for one
file: the sorted copy of `ChangedLines` (`sort.Ints`), keeping those with
a non-empty entry in the `Surrounding` map. -/
def contextLinesRender (c : CodeContext) : List Int :=
  (c.ChangedLines.mergeSort fun a b => decide (a ≤ b)).filter fun n =>
    match List.lookup n c.Surrounding with
    | some s => !s.isEmpty
    | none => false

/-- The order in which `buildBatchPrompt` visits (file, context) pairs:
`sort.Slice` over the indices by `NewPath` (an unstable sort whose
contract — some `≤`-sorted permutation — is modelled by `mergeSort`),
with each file keeping its own aligned context. -/
def promptPairs (files : List FileDiff) (ctxs : List (Option CodeContext)) :
    List (FileDiff × Option CodeContext) :=
  (files.zip ctxs).mergeSort fun p q => decide (p.1.NewPath ≤ q.1.NewPath)

/-- Decimal rendering of a Go `int` (`fmt.Sprintf`'s `%d`). -/
def intDigits (n : Int) : List Char :=
  if n < 0 then '-' :: digitsOfNat n.natAbs else digitsOfNat n.toNat

/-- One per-file section of the prompt (the body of the render loop of
`buildBatchPrompt`). -/
def fileSection (idx : Nat) (file : FileDiff) (ctx : Option CodeContext) :
    List Char :=
  "### File ".data ++ digitsOfNat (idx + 1) ++ ": ".data ++ file.NewPath ++
    ['\n'] ++
  "**Language:** ".data ++ file.Language ++ " | **Changes:** +".data ++
    digitsOfNat file.Additions ++ " -".data ++ digitsOfNat file.Deletions ++
    "\n\n".data ++
  "```diff\n".data ++ file.Diff ++ "\n```\n\n".data ++
  (match ctx with
   | some c =>
      if c.Surrounding.length > 0 then
        "**Enhanced Context:**\n".data ++
          ((contextLinesRender c).map fun n =>
            "\nLine ".data ++ intDigits n ++ " context:\n".data ++
              (List.lookup n c.Surrounding).getD [] ++ ['\n']).flatten ++
          ['\n']
      else []
   | none => []) ++
  List.replicate 80 '-' ++ "\n\n".data

/-- Go `buildBatchPrompt` (src/internal/ai/client.go, lines 100-180; the
side-effecting prompt log write is not modelled). -/
def buildBatchPrompt (best : List Char) (files : List FileDiff)
    (ctxs : List (Option CodeContext)) : List Char :=
  promptPreamble ++ best ++ filesHeaderText ++
    ((promptPairs files ctxs).enum.map fun p =>
      fileSection p.1 p.2.1 p.2.2).flatten ++
    promptInstructions

/-- C5: the prompt renders its per-file sections in ascending (non-
decreasing) lexicographic order of each file's new path, visiting a
permutation of the input files (so input order is irrelevant), and within
each file's context section the per-line blocks appear in ascending
numeric order of changed line number. -/
theorem buildBatchPrompt_ordering (best : List Char) (files : List FileDiff)
    (ctxs : List (Option CodeContext)) (hlen : files.length ≤ ctxs.length) :
    buildBatchPrompt best files ctxs =
      promptPreamble ++ best ++ filesHeaderText ++
        ((promptPairs files ctxs).enum.map fun p =>
          fileSection p.1 p.2.1 p.2.2).flatten ++ promptInstructions ∧
      ((promptPairs files ctxs).map Prod.fst).Perm files ∧
      ((promptPairs files ctxs).map Prod.fst).Pairwise
        (fun a b => a.NewPath ≤ b.NewPath) ∧
      ∀ c : CodeContext, (contextLinesRender c).Pairwise (· ≤ ·) := by
  refine ⟨rfl, ?_, ?_, ?_⟩
  · have hperm := List.mergeSort_perm (files.zip ctxs)
      (fun p q => decide (p.1.NewPath ≤ q.1.NewPath))
    have := hperm.map Prod.fst
    rwa [List.map_fst_zip files ctxs hlen] at this
  · have hs := @List.sorted_mergeSort (FileDiff × Option CodeContext)
      (fun p q => decide (p.1.NewPath ≤ q.1.NewPath))
      (fun a b c hab hbc => by
        simp only [decide_eq_true_eq] at *
        exact le_trans hab hbc)
      (fun a b => by
        simp only [Bool.or_eq_true, decide_eq_true_eq]
        exact le_total _ _)
      (files.zip ctxs)
    rw [List.pairwise_map]
    exact hs.imp fun h => by simpa using h
  · intro c
    have hs := @List.sorted_mergeSort Int
      (fun a b => decide (a ≤ b))
      (fun a b c hab hbc => by
        simp only [decide_eq_true_eq] at *
        exact le_trans hab hbc)
      (fun a b => by
        simp only [Bool.or_eq_true, decide_eq_true_eq]
        exact le_total _ _)
      c.ChangedLines
    have hp : (c.ChangedLines.mergeSort fun a b => decide (a ≤ b)).Pairwise
        (· ≤ ·) := hs.imp fun h => by simpa using h
    exact hp.sublist (List.filter_sublist _)

/-- Witness for C5: two files given in reverse path order are visited as
a permutation of the input (and, by the theorem, in ascending path
order). -/
theorem buildBatchPrompt_ordering_witness :
    ((promptPairs
        [⟨"b.ts".data, "b.ts".data, [], 1, 0, []⟩,
         ⟨"a.ts".data, "a.ts".data, [], 1, 0, []⟩]
        [none, none]).map Prod.fst).Perm
      [⟨"b.ts".data, "b.ts".data, [], 1, 0, []⟩,
       ⟨"a.ts".data, "a.ts".data, [], 1, 0, []⟩] :=
  (buildBatchPrompt_ordering []
    [⟨"b.ts".data, "b.ts".data, [], 1, 0, []⟩,
     ⟨"a.ts".data, "a.ts".data, [], 1, 0, []⟩]
    [none, none] (by decide)).2.1

/-! ## Model response parsing (src/internal/ai/client.go,
`fencedJSON` and `parseBatchResponse`) -/

/-- The `\s` character class of Go's regexp engine (RE2):
tab, newline, form feed, carriage return, space. -/
def isSpaceRe (c : Char) : Bool :=
  c == '\t' || c == '\n' || c == '\x0c' || c == '\r' || c == ' '

/-- JSON whitespace as skipped by `encoding/json`'s scanner:
space, tab, newline, carriage return. -/
def isSpaceJson (c : Char) : Bool :=
  c == ' ' || c == '\t' || c == '\n' || c == '\r'

/-- Drop matching characters from the end of a list. -/
def dropTrailing (p : Char → Bool) (l : List Char) : List Char :=
  (l.reverse.dropWhile p).reverse

/-- Strip regexp whitespace (`\s*`) from both ends. -/
def trimRe (l : List Char) : List Char :=
  dropTrailing isSpaceRe (l.dropWhile isSpaceRe)

/-- Strip JSON whitespace from both ends. -/
def trimJson (l : List Char) : List Char :=
  dropTrailing isSpaceJson (l.dropWhile isSpaceJson)

/-- Does the list begin with a triple-backtick fence? -/
def startsFence (l : List Char) : Bool :=
  decide (l.take 3 = ['`', '`', '`'])

/-- Does a fence occur anywhere in the list? -/
def hasFence : List Char → Bool
  | [] => false
  | c :: cs => startsFence (c :: cs) || hasFence cs

/-- Split at the first fence: `some (pre, post)` with the input equal to
`pre ++ post`, `post` starting with a fence and `pre` fence-free. -/
def splitAtFence : List Char → Option (List Char × List Char)
  | [] => none
  | c :: cs =>
      if startsFence (c :: cs) then some ([], c :: cs)
      else
        match splitAtFence cs with
        | some (pre, post) => some (c :: pre, post)
        | none => none

/-- The greedy `(?:json)?` tag: consume a leading `json` when present
(the tag contains no backtick, so greedy consumption never needs
backtracking). -/
def jsonTagStrip (r : List Char) : List Char :=
  if r.take 4 = "json".data then r.drop 4 else r

/-- Match the regexp ``` ```(?:json)?\s*([\s\S]*?)\s*``` ``` at the start
of `cs`, returning the (lazy, whitespace-stripped) capture: the lazy
capture ends at the first subsequent fence, surrendering its trailing
`\s*` run. -/
def fenceMatchAt (cs : List Char) : Option (List Char) :=
  if startsFence cs then
    match splitAtFence ((jsonTagStrip (cs.drop 3)).dropWhile isSpaceRe) with
    | some (pre, _) => some (dropTrailing isSpaceRe pre)
    | none => none
  else none

/-- Go `fencedJSON.FindStringSubmatch`: leftmost match wins. -/
def findFence : List Char → Option (List Char)
  | [] => none
  | c :: cs =>
      match fenceMatchAt (c :: cs) with
      | some cap => some cap
      | none => findFence cs

/-- The payload selection of `parseBatchResponse`: the capture of the
fenced block when the regexp matches, the raw text otherwise. -/
def extractPayload (raw : List Char) : List Char :=
  match findFence raw with
  | some cap => cap
  | none => raw

lemma findFence_of_no_fence {l : List Char} (h : hasFence l = false) :
    findFence l = none := by
  induction l with
  | nil => rfl
  | cons c cs ih =>
      rw [hasFence, Bool.or_eq_false_iff] at h
      rw [findFence, fenceMatchAt, if_neg (by simp [h.1]), ih h.2]

lemma hasFence_append_right {a b : List Char} (h : hasFence (a ++ b) = false) :
    hasFence b = false := by
  induction a with
  | nil => exact h
  | cons c cs ih =>
      rw [List.cons_append, hasFence, Bool.or_eq_false_iff] at h
      exact ih h.2

lemma hasFence_dropWhile {p : Char → Bool} {l : List Char}
    (h : hasFence l = false) : hasFence (l.dropWhile p) = false := by
  induction l with
  | nil => exact h
  | cons c cs ih =>
      rw [hasFence, Bool.or_eq_false_iff] at h
      rw [List.dropWhile_cons]
      split_ifs with hp
      · exact ih h.2
      · rw [hasFence, Bool.or_eq_false_iff]
        exact ⟨h.1, h.2⟩

lemma startsFence_fence (rest : List Char) :
    startsFence ('`' :: '`' :: '`' :: rest) = true := rfl

lemma splitAtFence_boundary {a : List Char} (ha : hasFence a = false)
    (rest : List Char) :
    splitAtFence (a ++ '\n' :: '`' :: '`' :: '`' :: rest) =
      some (a ++ ['\n'], '`' :: '`' :: '`' :: rest) := by
  induction a with
  | nil =>
      rw [List.nil_append, splitAtFence,
        if_neg (show ¬ startsFence ('\n' :: '`' :: '`' :: '`' :: rest) = true by
          simp [startsFence, List.take_succ_cons]),
        splitAtFence, if_pos (startsFence_fence rest)]
      rfl
  | cons c cs ih =>
      rw [hasFence, Bool.or_eq_false_iff] at ha
      have hns : ¬ startsFence (c :: (cs ++ '\n' :: '`' :: '`' :: '`' :: rest))
          = true := by
        cases cs with
        | nil => simp [startsFence, List.take_succ_cons]
        | cons b t =>
            cases t with
            | nil => simp [startsFence, List.take_succ_cons]
            | cons b2 t2 =>
                intro hcontra
                simp only [startsFence, List.cons_append,
                  List.take_succ_cons, decide_eq_true_eq] at hcontra
                have hcf : startsFence (c :: b :: b2 :: t2) = true := by
                  simp only [startsFence, List.take_succ_cons,
                    decide_eq_true_eq]
                  simpa using hcontra
                rw [ha.1] at hcf
                cases hcf
      rw [List.cons_append, splitAtFence, if_neg hns, ih ha.2]
      rfl

lemma dropTrailing_append_space {p : Char → Bool} {c : Char} (hc : p c = true)
    (x : List Char) : dropTrailing p (x ++ [c]) = dropTrailing p x := by
  rw [dropTrailing, dropTrailing, List.reverse_append]
  simp [List.dropWhile_cons, hc]

lemma jsonTagStrip_json (X : List Char) :
    jsonTagStrip ('j' :: 's' :: 'o' :: 'n' :: X) = X := by
  rw [jsonTagStrip,
    if_pos (show ('j' :: 's' :: 'o' :: 'n' :: X).take 4 = "json".data
      from rfl)]
  rfl

/-- Matching the wrapped reply at position 0: the capture is exactly the
whitespace-trimmed `j`, provided `j` contains no fence. -/
lemma fenceMatchAt_wrap (j : List Char) (hj : hasFence j = false) :
    fenceMatchAt ('`' :: '`' :: '`' :: 'j' :: 's' :: 'o' :: 'n' :: '\n' ::
      (j ++ '\n' :: '`' :: '`' :: '`' :: [])) = some (trimRe j) := by
  rw [fenceMatchAt, if_pos (startsFence_fence _),
    show ('`' :: '`' :: '`' :: 'j' :: 's' :: 'o' :: 'n' :: '\n' ::
      (j ++ '\n' :: '`' :: '`' :: '`' :: [])).drop 3 =
      'j' :: 's' :: 'o' :: 'n' :: '\n' :: (j ++ '\n' :: '`' :: '`' :: '`' :: [])
      from rfl,
    jsonTagStrip_json, List.dropWhile_cons,
    if_pos (show isSpaceRe '\n' = true by decide)]
  rcases hsplit : j.dropWhile isSpaceRe with _ | ⟨c, cs⟩
  · have hred : (j ++ '\n' :: '`' :: '`' :: '`' :: []).dropWhile isSpaceRe =
        '`' :: '`' :: '`' :: [] := by
      rw [List.dropWhile_append, hsplit]
      decide
    rw [hred, splitAtFence, if_pos (startsFence_fence _)]
    have hnil : trimRe j = [] := by
      rw [trimRe, hsplit]; rfl
    rw [hnil]
    rfl
  · have hdw : (j ++ '\n' :: '`' :: '`' :: '`' :: []).dropWhile isSpaceRe =
        (c :: cs) ++ '\n' :: '`' :: '`' :: '`' :: [] := by
      rw [List.dropWhile_append]
      simp [hsplit]
    rw [hdw, splitAtFence_boundary (hsplit ▸ hasFence_dropWhile hj)]
    show some (dropTrailing isSpaceRe ((c :: cs) ++ ['\n'])) = some (trimRe j)
    rw [dropTrailing_append_space (show isSpaceRe '\n' = true by decide),
      trimRe, hsplit]

/-- The extracted payload of the wrapped reply is the trimmed `j`. -/
lemma extractPayload_wrap (j : List Char) (hj : hasFence j = false) :
    extractPayload ("```json\n".data ++ j ++ "\n```".data) = trimRe j := by
  rw [show "```json\n".data ++ j ++ "\n```".data =
      '`' :: ('`' :: '`' :: 'j' :: 's' :: 'o' :: 'n' :: '\n' ::
        (j ++ '\n' :: '`' :: '`' :: '`' :: [])) by
    rw [List.append_assoc]
    rfl]
  rw [extractPayload, findFence, fenceMatchAt_wrap j hj]

/-- Fence-free raw text is passed through unchanged. -/
lemma extractPayload_of_no_fence (raw : List Char)
    (h : hasFence raw = false) : extractPayload raw = raw := by
  rw [extractPayload, findFence_of_no_fence h]

/-! ### A model of `encoding/json`'s Unmarshal for the
`AIReviewResponse` shape -/

/-- Go `types.ReviewComment` (src/internal/types/types.go), with its JSON
field tags `filePath` / `line` / `comment` / `severity`. -/
structure ReviewComment where
  FilePath : List Char
  Line     : Int
  Comment  : List Char
  Severity : List Char
  deriving DecidableEq, Repr

/-- Go `types.AIReviewResponse` (src/internal/types/types.go), with JSON
field tags `comments` / `summary`. -/
structure AIReviewResponse where
  Comments : List ReviewComment
  Summary  : List Char
  deriving DecidableEq, Repr

/-- Go zero value of `ReviewComment`. -/
def zeroComment : ReviewComment := ⟨[], 0, [], []⟩

/-- Go zero value of `AIReviewResponse`. -/
def zeroResponse : AIReviewResponse := ⟨[], []⟩

/-- Generic JSON values (number tokens kept raw, as the scanner does
before conversion to the target field type). -/
inductive Jval where
  | jnull
  | jbool (b : Bool)
  | jnum (tok : List Char)
  | jstr (s : List Char)
  | jarr (xs : List Jval)
  | jobj (fields : List (List Char × Jval))

/-- Skip JSON whitespace. -/
def skipWS (cs : List Char) : List Char := cs.dropWhile isSpaceJson

def isHexDigit (c : Char) : Bool :=
  c.isDigit || ('a' ≤ c && c ≤ 'f') || ('A' ≤ c && c ≤ 'F')

def hexDigitVal (c : Char) : Nat :=
  if c.isDigit then c.toNat - 48
  else if 'a' ≤ c && c ≤ 'f' then c.toNat - 87
  else c.toNat - 55

def hexVal (ds : List Char) : Nat :=
  ds.foldl (fun n c => n * 16 + hexDigitVal c) 0

/-- The optional exponent part of a JSON number. -/
def parseExpPart (acc : List Char) (cs : List Char) :
    Option (List Char × List Char) :=
  match cs with
  | c :: t =>
      if c = 'e' ∨ c = 'E' then
        match t with
        | s :: t' =>
            let sgn : List Char × List Char :=
              if s = '+' ∨ s = '-' then ([s], t') else ([], t)
            match sgn.2.takeWhile Char.isDigit with
            | [] => none
            | ds => some (acc ++ c :: sgn.1 ++ ds,
                sgn.2.dropWhile Char.isDigit)
        | [] => none
      else some (acc, cs)
  | [] => some (acc, [])

/-- The optional fraction part (followed by the optional exponent). -/
def parseFracExp (acc : List Char) (cs : List Char) :
    Option (List Char × List Char) :=
  match cs with
  | '.' :: t =>
      match t.takeWhile Char.isDigit with
      | [] => none
      | ds => parseExpPart (acc ++ '.' :: ds) (t.dropWhile Char.isDigit)
  | _ => parseExpPart acc cs

/-- A JSON number token: `-? (0 | [1-9][0-9]*) frac? exp?`. -/
def parseNumber (cs : List Char) : Option (List Char × List Char) :=
  let sgn : List Char × List Char :=
    match cs with
    | '-' :: t => (['-'], t)
    | _ => ([], cs)
  match sgn.2 with
  | [] => none
  | c :: t =>
      if c = '0' then parseFracExp (sgn.1 ++ ['0']) t
      else if c.isDigit then
        parseFracExp (sgn.1 ++ c :: t.takeWhile Char.isDigit)
          (t.dropWhile Char.isDigit)
      else none

mutual

/-- One JSON value at the head of the input (no leading whitespace);
fuel bounds the recursion depth. -/
def parseValue : Nat → List Char → Option (Jval × List Char)
  | 0, _ => none
  | fuel + 1, cs =>
      match cs with
      | [] => none
      | 'n' :: t =>
          if t.take 3 = "ull".data then some (.jnull, t.drop 3) else none
      | 't' :: t =>
          if t.take 3 = "rue".data then some (.jbool true, t.drop 3) else none
      | 'f' :: t =>
          if t.take 4 = "alse".data then some (.jbool false, t.drop 4)
          else none
      | '"' :: t => (parseStringBody fuel t).map fun p => (.jstr p.1, p.2)
      | '[' :: t =>
          match skipWS t with
          | ']' :: r => some (.jarr [], r)
          | r => (parseElems fuel r).map fun p => (.jarr p.1, p.2)
      | '{' :: t =>
          match skipWS t with
          | '}' :: r => some (.jobj [], r)
          | r => (parseMembers fuel r).map fun p => (.jobj p.1, p.2)
      | c :: t =>
          if c = '-' ∨ c.isDigit then
            (parseNumber (c :: t)).map fun p => (.jnum p.1, p.2)
          else none

/-- One or more comma-separated array elements up to the closing `]`. -/
def parseElems : Nat → List Char → Option (List Jval × List Char)
  | 0, _ => none
  | fuel + 1, cs => do
      let (v, r) ← parseValue fuel cs
      match skipWS r with
      | ',' :: r2 => do
          let (vs, r3) ← parseElems fuel (skipWS r2)
          pure (v :: vs, r3)
      | ']' :: r2 => pure ([v], r2)
      | _ => none

/-- One or more `"key": value` members up to the closing `}`. -/
def parseMembers : Nat → List Char →
    Option (List (List Char × Jval) × List Char)
  | 0, _ => none
  | fuel + 1, cs =>
      match cs with
      | '"' :: t => do
          let (k, r) ← parseStringBody fuel t
          match skipWS r with
          | ':' :: r2 => do
              let (v, r3) ← parseValue fuel (skipWS r2)
              match skipWS r3 with
              | ',' :: r4 => do
                  let (ms, r5) ← parseMembers fuel (skipWS r4)
                  pure ((k, v) :: ms, r5)
              | '}' :: r4 => pure ([(k, v)], r4)
              | _ => none
          | _ => none
      | _ => none

/-- The body of a JSON string (after the opening quote), decoding the
escapes handled by `encoding/json`: named escapes, `\uXXXX` with
surrogate-pair combining and U+FFFD replacement of lone surrogates;
unescaped control characters and invalid escapes are errors. -/
def parseStringBody : Nat → List Char → Option (List Char × List Char)
  | 0, _ => none
  | fuel + 1, cs =>
      match cs with
      | [] => none
      | '"' :: rest => some ([], rest)
      | '\\' :: e :: rest =>
          match e with
          | '"' => (parseStringBody fuel rest).map fun p => ('"' :: p.1, p.2)
          | '\\' => (parseStringBody fuel rest).map fun p => ('\\' :: p.1, p.2)
          | '/' => (parseStringBody fuel rest).map fun p => ('/' :: p.1, p.2)
          | 'b' => (parseStringBody fuel rest).map fun p => ('\x08' :: p.1, p.2)
          | 'f' => (parseStringBody fuel rest).map fun p => ('\x0c' :: p.1, p.2)
          | 'n' => (parseStringBody fuel rest).map fun p => ('\n' :: p.1, p.2)
          | 'r' => (parseStringBody fuel rest).map fun p => ('\r' :: p.1, p.2)
          | 't' => (parseStringBody fuel rest).map fun p => ('\t' :: p.1, p.2)
          | 'u' =>
              if (rest.take 4).length = 4 ∧ (rest.take 4).all isHexDigit then
                if 0xD800 ≤ hexVal (rest.take 4) ∧
                    hexVal (rest.take 4) < 0xDC00 then
                  match rest.drop 4 with
                  | '\\' :: 'u' :: rest2 =>
                      if (rest2.take 4).length = 4 ∧
                          (rest2.take 4).all isHexDigit ∧
                          0xDC00 ≤ hexVal (rest2.take 4) ∧
                          hexVal (rest2.take 4) < 0xE000 then
                        (parseStringBody fuel (rest2.drop 4)).map fun p =>
                          (Char.ofNat (0x10000 +
                            (hexVal (rest.take 4) - 0xD800) * 0x400 +
                            (hexVal (rest2.take 4) - 0xDC00)) :: p.1, p.2)
                      else
                        (parseStringBody fuel (rest.drop 4)).map fun p =>
                          ('�' :: p.1, p.2)
                  | _ =>
                      (parseStringBody fuel (rest.drop 4)).map fun p =>
                        ('�' :: p.1, p.2)
                else if 0xDC00 ≤ hexVal (rest.take 4) ∧
                    hexVal (rest.take 4) < 0xE000 then
                  (parseStringBody fuel (rest.drop 4)).map fun p =>
                    ('�' :: p.1, p.2)
                else
                  (parseStringBody fuel (rest.drop 4)).map fun p =>
                    (Char.ofNat (hexVal (rest.take 4)) :: p.1, p.2)
              else none
          | _ => none
      | c :: rest =>
          if c.toNat < 0x20 then none
          else (parseStringBody fuel rest).map fun p => (c :: p.1, p.2)

end

/-- Case-insensitive field-name match (`encoding/json` key matching). -/
def eqCI (a b : List Char) : Bool :=
  a.map Char.toLower == b.map Char.toLower

/-- Decoding a number token into an `int` field (`strconv.ParseInt`):
only an optionally-signed pure-integer token within int64 range. -/
def intFromTok (tok : List Char) : Option Int :=
  match tok with
  | '-' :: ds =>
      if ds ≠ [] ∧ ds.all Char.isDigit then
        if natOfDigits ds ≤ maxInt64 + 1 then some (-(natOfDigits ds : Int))
        else none
      else none
  | ds =>
      if ds ≠ [] ∧ ds.all Char.isDigit then
        if natOfDigits ds ≤ maxInt64 then some ((natOfDigits ds : Int))
        else none
      else none

/-- Assign one incoming object member to a `ReviewComment` field: JSON
`null` is a no-op, a type mismatch is an error, unknown keys are
ignored. -/
def setCommentField (c : ReviewComment) (k : List Char) (v : Jval) :
    Option ReviewComment :=
  if eqCI k "filePath".data then
    match v with
    | .jstr s => some { c with FilePath := s }
    | .jnull => some c
    | _ => none
  else if eqCI k "line".data then
    match v with
    | .jnum t => (intFromTok t).map fun n => { c with Line := n }
    | .jnull => some c
    | _ => none
  else if eqCI k "comment".data then
    match v with
    | .jstr s => some { c with Comment := s }
    | .jnull => some c
    | _ => none
  else if eqCI k "severity".data then
    match v with
    | .jstr s => some { c with Severity := s }
    | .jnull => some c
    | _ => none
  else some c

/-- Unmarshal one array element into a `ReviewComment`. -/
def decodeComment : Jval → Option ReviewComment
  | .jnull => some zeroComment
  | .jobj fields =>
      fields.foldlM (fun c kv => setCommentField c kv.1 kv.2) zeroComment
  | _ => none

/-- Assign one incoming object member to an `AIReviewResponse` field. -/
def setRespField (r : AIReviewResponse) (k : List Char) (v : Jval) :
    Option AIReviewResponse :=
  if eqCI k "comments".data then
    match v with
    | .jnull => some r
    | .jarr xs =>
        (xs.mapM decodeComment).map fun cs => { r with Comments := cs }
    | _ => none
  else if eqCI k "summary".data then
    match v with
    | .jstr s => some { r with Summary := s }
    | .jnull => some r
    | _ => none
  else some r

/-- Unmarshal an exactly-consumed, already-trimmed JSON text into an
`AIReviewResponse`: the top level must be an object (or `null`, a
no-op); anything left over after the value is an error. -/
def jsonCore (t : List Char) : Option AIReviewResponse :=
  match parseValue (2 * t.length + 4) t with
  | some (v, rest) =>
      if rest = [] then
        match v with
        | .jnull => some zeroResponse
        | .jobj fields =>
            fields.foldlM (fun r kv => setRespField r kv.1 kv.2) zeroResponse
        | _ => none
      else none
  | none => none

/-- Go `json.Unmarshal([]byte(payload), &parsed)`: leading and trailing
JSON whitespace is insignificant. -/
def decodeReview (cs : List Char) : Option AIReviewResponse :=
  jsonCore (trimJson cs)

/-- Go `parseBatchResponse` (src/internal/ai/client.go, lines 182-197). -/
def parseBatchResponse (raw : List Char) : AIReviewResponse :=
  match decodeReview (extractPayload raw) with
  | some parsed => parsed
  | none => { Comments := [], Summary := "Failed to parse AI response".data }

lemma dropWhile_idem (p : Char → Bool) (l : List Char) :
    (l.dropWhile p).dropWhile p = l.dropWhile p := by
  induction l with
  | nil => rfl
  | cons c cs ih =>
      rw [List.dropWhile_cons]
      split_ifs with h
      · exact ih
      · rw [List.dropWhile_cons, if_neg h]

lemma dropWhile_dropTrailing (p : Char → Bool) (x : List Char)
    (hx : x.dropWhile p = x) :
    (dropTrailing p x).dropWhile p = dropTrailing p x := by
  cases x with
  | nil => rfl
  | cons c t =>
      have hc : ¬ p c = true := by
        intro hcontra
        rw [List.dropWhile_cons, if_pos hcontra] at hx
        have h1 : (t.dropWhile p).length ≤ t.length :=
          List.Sublist.length_le (List.dropWhile_sublist p)
        rw [hx] at h1
        simp at h1
      rw [dropTrailing, List.reverse_cons, List.dropWhile_append]
      split_ifs with h
      · rw [show List.dropWhile p [c] = [c] by
          rw [List.dropWhile_cons, if_neg hc]]
        rw [show ([c] : List Char).reverse = [c] from rfl,
          List.dropWhile_cons, if_neg hc]
      · rw [List.reverse_append, show ([c] : List Char).reverse = [c] from rfl,
          List.singleton_append, List.dropWhile_cons, if_neg hc]

lemma dropTrailing_idem (p : Char → Bool) (x : List Char) :
    dropTrailing p (dropTrailing p x) = dropTrailing p x := by
  rw [dropTrailing, dropTrailing, List.reverse_reverse, dropWhile_idem]

lemma trimJson_idem (l : List Char) : trimJson (trimJson l) = trimJson l := by
  rw [trimJson, trimJson,
    dropWhile_dropTrailing isSpaceJson (l.dropWhile isSpaceJson)
      (dropWhile_idem _ _),
    dropTrailing_idem]

/-- C6 (amended): for every reply text `j` that contains no triple-
backtick fence and whose surrounding whitespace is the same under the
regexp class `\s = [\t\n\f\r ]` as under JSON whitespace (in particular
any `j` without leading/trailing form feeds — every valid JSON text
qualifies), parsing the fenced wrapping of `j` yields exactly the same
`AIReviewResponse` as parsing `j` bare. -/
theorem parseBatchResponse_fence_roundtrip (j : List Char)
    (hfence : hasFence j = false)
    (htrim : trimRe j = trimJson j) :
    parseBatchResponse ("```json\n".data ++ j ++ "\n```".data) =
      parseBatchResponse j := by
  rw [parseBatchResponse, parseBatchResponse, extractPayload_wrap j hfence,
    extractPayload_of_no_fence j hfence, decodeReview, decodeReview, htrim,
    trimJson_idem]

/-- Witness for C6: a concrete fenced reply decodes identically to its
bare payload. -/
theorem parseBatchResponse_fence_roundtrip_witness :
    parseBatchResponse
        ("```json\n".data ++
          "\x7b\"comments\": [], \"summary\": \"ok\"\x7d".data ++
          "\n```".data) =
      parseBatchResponse "\x7b\"comments\": [], \"summary\": \"ok\"\x7d".data :=
  parseBatchResponse_fence_roundtrip
    "\x7b\"comments\": [], \"summary\": \"ok\"\x7d".data
    (by decide) (by decide)

/-- Counterexample to C6 as stated: for the valid JSON text whose
`summary` string contains a single ``` ``` ``` fence, wrapping changes
the regexp's lazy capture (it stops at the fence inside the string), so
the wrapped reply fails to parse while the bare reply succeeds. -/
theorem parseBatchResponse_fence_roundtrip_cex :
    ¬ (parseBatchResponse
        ("```json\n".data ++
          "\x7b\"comments\": [], \"summary\": \"a ``` b\"\x7d".data ++
          "\n```".data) =
      parseBatchResponse
        "\x7b\"comments\": [], \"summary\": \"a ``` b\"\x7d".data) := by
  decide

/-- C7: whenever the extracted payload fails to decode as JSON for the
`AIReviewResponse` shape, `parseBatchResponse` returns the fixed
failure response — no comments and the summary
`"Failed to parse AI response"`; the function is total by
construction, so no error is raised or propagated. -/
theorem parseBatchResponse_parse_failure (raw : List Char)
    (h : decodeReview (extractPayload raw) = none) :
    parseBatchResponse raw =
      { Comments := [], Summary := "Failed to parse AI response".data } := by
  rw [parseBatchResponse, h]

/-- Witness for C7: a non-JSON reply yields the fixed failure response. -/
theorem parseBatchResponse_parse_failure_witness :
    parseBatchResponse "not json".data =
      { Comments := [], Summary := "Failed to parse AI response".data } :=
  parseBatchResponse_parse_failure "not json".data (by decide)

end CodeReview
